import Mathlib

/-!
Verification of the numerical core of the `inlet-designer` repository: the
root finders of `src/utils/numerics.rs`, the isentropic-flow relations of
`src/utils/isentropic.rs`, the oblique-shock relations of
`src/utils/obliqueshock.rs` and the Taylor-Maccoll conical-flow integrator of
`src/taylormaccoll.rs`, shallowly embedded over the exact reals.

Modelling conventions, stated once and used throughout:

* Rust `f64` values are embedded as `ℝ`, with `f64` arithmetic read as exact
  real arithmetic.  `powf` becomes `Real.rpow`, `powi n` becomes `^ (n : ℤ)`,
  and the trigonometric intrinsics become the Mathlib functions of the same
  names.  Where a claim hinges on the `f64` special values themselves (NaN,
  infinity), a separate explicitly-named model of those special values is
  introduced next to the exact-real embedding.
* Fallible Rust functions return `Result<T, &'static str>`; the embedding
  returns `Res T`, whose `err` constructor carries the error kind named by the
  message the source returns (`ErrKind` lists the kind/message table).  A Rust
  `panic!` aborts the process; it is embedded as the distinct outcome
  `Res.panicked` carrying the kind of the panic message (`PanicKind`), so that
  returning an error value and panicking stay distinguishable facts.
* `for _ in 0..n` loops are embedded as fuel recursion, with fuel `n`.
  Running out of fuel in a root finder is exactly the source's
  `panic!("solution not converged")` path.
* Real division by zero is `0` in Lean while it is `inf`/NaN in `f64`.  No
  theorem below depends on the value a division by zero yields, except where
  the distinction is itself under scrutiny (claim C6), where the special
  values are modelled explicitly via `Option ℝ` (`none` standing for a
  non-finite `f64` result).
-/

/-- Error kinds carried by the `&'static str` error returns of the source, one
constructor per distinct message:
`invalidMachNumber` for "invalid mach number", `invalidSpecificHeatRatio` for
"invalid specific heat ratio", `invalidMachAngle` for "invalid mach angle",
`invalidTemperatureRatio` for "invalid temperature ratio",
`invalidPressureRatio` for "invalid pressure ratio", `invalidDensityRatio` for
"invalid density ratio", `mathError` for "math error". -/
inductive ErrKind where
  | invalidMachNumber
  | invalidSpecificHeatRatio
  | invalidMachAngle
  | invalidTemperatureRatio
  | invalidPressureRatio
  | invalidDensityRatio
  | mathError
  deriving DecidableEq

/-- Kinds of `panic!` in the source, one constructor per distinct panic
message: `convergenceFailure` for "solution not converged" (both root
finders), `singularDerivative` for "derivative is too small, newton-raphson
may fail", `deflectionBug` for "erm what" (inside `calc_shock_angle`). -/
inductive PanicKind where
  | convergenceFailure
  | singularDerivative
  | deflectionBug
  deriving DecidableEq

/-- Outcome of running embedded Rust code: a returned value, a returned
`Err(...)` value, or a process abort via `panic!`. -/
inductive Res (α : Type) where
  | ok (a : α)
  | err (e : ErrKind)
  | panicked (p : PanicKind)

/-- Sequencing of embedded computations: Rust's `?` operator on the `err`
side, plus propagation of a panic from a callee. -/
def Res.bind {α β : Type} : Res α → (α → Res β) → Res β
  | .ok a, f => f a
  | .err e, _ => .err e
  | .panicked p, _ => .panicked p

@[simp] theorem Res.bind_ok {α β : Type} (a : α) (f : α → Res β) :
    Res.bind (.ok a) f = f a := rfl

/-! ## src/utils/numerics.rs -/

/-- Loop body of `bisection` (src/utils/numerics.rs lines 18-34): the
`for _ in 0..max_iters` loop as fuel recursion; fuel exhaustion is the
source's `panic!("solution not converged")`. -/
noncomputable def bisectionLoop (f : ℝ → ℝ) (tolerance : ℝ) :
    ℝ → ℝ → Nat → Res ℝ
  | _, _, 0 => .panicked .convergenceFailure
  | lowerbound, upperbound, n + 1 =>
    let midpoint := (upperbound + lowerbound) / 2
    if |f midpoint| < tolerance ∨ (upperbound - lowerbound) / 2 < tolerance then
      .ok midpoint
    else if f midpoint * f lowerbound > 0 then
      bisectionLoop f tolerance midpoint upperbound n
    else
      bisectionLoop f tolerance lowerbound midpoint n

/-- Embedding of `bisection` (src/utils/numerics.rs lines 3-35).  Defaults:
tolerance `1e-9`, `max_iters` 200.  The bounds are first ordered as
`(min x1 x2, max x1 x2)`. -/
noncomputable def bisection (f : ℝ → ℝ) (x1 x2 : ℝ)
    (tolerance : Option ℝ) (max_iters : Option Nat) : Res ℝ :=
  let tolerance := tolerance.getD 1e-9
  let max_iters := max_iters.getD 200
  let bounds := if x1 < x2 then (x1, x2) else (x2, x1)
  bisectionLoop f tolerance bounds.1 bounds.2 max_iters

/-- Loop body of `newton_raphson` (src/utils/numerics.rs lines 59-81) as fuel
recursion.  Each pass first applies the near-zero derivative guard at the
current iterate (`panic!("derivative is too small, ...")`), then forms
`x_next = x_current - f(x_current)/df(x_current)` and returns it if
`|x_next - x_current| <= tolerance`; fuel exhaustion is the source's
`panic!("solution not converged")`. -/
noncomputable def newtonLoop (f df : ℝ → ℝ) (tolerance : ℝ) :
    ℝ → Nat → Res ℝ
  | _, 0 => .panicked .convergenceFailure
  | x_current, n + 1 =>
    if |df x_current| < 1e-12 then .panicked .singularDerivative
    else
      let x_next := x_current - f x_current / df x_current
      if |x_next - x_current| ≤ tolerance then .ok x_next
      else newtonLoop f df tolerance x_next n

/-- Embedding of `newton_raphson` (src/utils/numerics.rs lines 37-82).
Defaults: tolerance `1e-9`, `max_iters` 200. -/
noncomputable def newton_raphson (f df : ℝ → ℝ) (x_init : ℝ)
    (tolerance : Option ℝ) (max_iters : Option Nat) : Res ℝ :=
  newtonLoop f df (tolerance.getD 1e-9) x_init (max_iters.getD 200)

/-- Mathematical Newton iterate sequence `x_{n+1} = x_n - f(x_n)/df(x_n)`
from `x0`, used to state what `newton_raphson` computes. -/
noncomputable def nrSeq (f df : ℝ → ℝ) (x0 : ℝ) : Nat → ℝ
  | 0 => x0
  | n + 1 => nrSeq f df x0 n - f (nrSeq f df x0 n) / df (nrSeq f df x0 n)

/-! ## src/utils/isentropic.rs -/

/-- Embedding of `valid_specific_heat_ratio` (src/utils/isentropic.rs lines
122-125): the specific heat ratio must be greater than 1. -/
def valid_specific_heat_ratio (specific_heat_ratio : ℝ) : Prop :=
  specific_heat_ratio > 1

noncomputable instance : DecidablePred valid_specific_heat_ratio :=
  fun g => Real.decidableLT 1 g

/-- Embedding of `calc_mach_angle_from_mach` (src/utils/isentropic.rs lines
6-12): errors on a negative Mach number, else returns `asin(1/M)`. -/
noncomputable def calc_mach_angle_from_mach (mach_number : ℝ) : Res ℝ :=
  if mach_number < 0 then .err .invalidMachNumber
  else .ok (Real.arcsin (1 / mach_number))

/-- Model of the `f64` special values of `asin(1/M)` used by claim C6: in
`f64`, `1.0/0.0` is `inf` and `asin` of any argument outside `[-1, 1]` (or of
a non-finite argument) is NaN.  `none` stands for a non-finite result.  This
refines `calc_mach_angle_from_mach` by tracking, next to the exact real
value, whether the `f64` computation produces a finite number at all. -/
noncomputable def fdiv (a b : ℝ) : Option ℝ :=
  if b = 0 then none else some (a / b)

/-- Model of `f64::asin` on the value model of `fdiv`: NaN (i.e. `none`) for
a non-finite argument and for any argument outside `[-1, 1]`. -/
noncomputable def fasin : Option ℝ → Option ℝ
  | none => none
  | some y => if y < -1 ∨ 1 < y then none else some (Real.arcsin y)

/-- Embedding of `calc_mach_angle_from_mach` with the `f64` special values of
the `1.0 / mach_number` division and of `asin` modelled via `fdiv`/`fasin`:
`.ok none` is the source returning `Ok(NaN)`. -/
noncomputable def calc_mach_angle_from_mach_fp (mach_number : ℝ) :
    Res (Option ℝ) :=
  if mach_number < 0 then .err .invalidMachNumber
  else .ok (fasin (fdiv 1 mach_number))

/-- Embedding of `calc_pressure_ratio_from_mach` (src/utils/isentropic.rs
lines 14-20). -/
noncomputable def calc_pressure_ratio_from_mach
    (mach_number specific_heat_ratio : ℝ) : Res ℝ :=
  if ¬ valid_specific_heat_ratio specific_heat_ratio then
    .err .invalidSpecificHeatRatio
  else
    .ok ((1 + (specific_heat_ratio - 1) / 2 * mach_number ^ (2 : ℕ)) ^
      (-specific_heat_ratio / (specific_heat_ratio - 1)))

/-- Embedding of `calc_temperature_ratio_from_mach` (src/utils/isentropic.rs
lines 22-28); `powi(-1)` is the integer power `(-1 : ℤ)`. -/
noncomputable def calc_temperature_ratio_from_mach
    (mach_number specific_heat_ratio : ℝ) : Res ℝ :=
  if ¬ valid_specific_heat_ratio specific_heat_ratio then
    .err .invalidSpecificHeatRatio
  else
    .ok ((1 + (specific_heat_ratio - 1) / 2 * mach_number ^ (2 : ℕ)) ^
      (-1 : ℤ))

/-- Embedding of `calc_density_ratio_from_mach` (src/utils/isentropic.rs
lines 30-36). -/
noncomputable def calc_density_ratio_from_mach
    (mach_number specific_heat_ratio : ℝ) : Res ℝ :=
  if ¬ valid_specific_heat_ratio specific_heat_ratio then
    .err .invalidSpecificHeatRatio
  else
    .ok ((1 + (specific_heat_ratio - 1) / 2 * mach_number ^ (2 : ℕ)) ^
      (-1 / (specific_heat_ratio - 1)))

/-- Embedding of `prandtl_meyer_function` (src/utils/isentropic.rs lines
42-56); errors on an invalid specific heat ratio, then on `M <= 1`. -/
noncomputable def prandtl_meyer_function
    (mach_number specific_heat_ratio : ℝ) : Res ℝ :=
  if ¬ valid_specific_heat_ratio specific_heat_ratio then
    .err .invalidSpecificHeatRatio
  else if mach_number ≤ 1 then .err .invalidMachNumber
  else
    let gamma_ratio := (specific_heat_ratio - 1) / (specific_heat_ratio + 1)
    let sqrt_gamma_ratio := Real.sqrt gamma_ratio
    .ok ((1 / sqrt_gamma_ratio) *
        Real.arctan (sqrt_gamma_ratio * Real.sqrt (mach_number ^ (2 : ℕ) - 1)) -
      Real.arctan (Real.sqrt (mach_number ^ (2 : ℕ) - 1)))

/-- Embedding of `calc_mach_from_mach_angle` (src/utils/isentropic.rs lines
58-65): the angle must lie in `[0, π/2]`. -/
noncomputable def calc_mach_from_mach_angle (mach_angle : ℝ) : Res ℝ :=
  if mach_angle < 0 ∨ mach_angle > Real.pi / 2 then .err .invalidMachAngle
  else .ok (1 / Real.sin mach_angle)

/-- Embedding of `calc_mach_from_temperature_ratio` (src/utils/isentropic.rs
lines 67-77). -/
noncomputable def calc_mach_from_temperature_ratio
    (temperature_ratio specific_heat_ratio : ℝ) : Res ℝ :=
  if ¬ valid_specific_heat_ratio specific_heat_ratio then
    .err .invalidSpecificHeatRatio
  else if temperature_ratio ≤ 0 ∨ temperature_ratio > 1 then
    .err .invalidTemperatureRatio
  else
    .ok (Real.sqrt (2 * ((1 / temperature_ratio) - 1) /
      (specific_heat_ratio - 1)))

/-- Embedding of `calc_mach_from_pressure_ratio` (src/utils/isentropic.rs
lines 79-89). -/
noncomputable def calc_mach_from_pressure_ratio
    (pressure_ratio specific_heat_ratio : ℝ) : Res ℝ :=
  if ¬ valid_specific_heat_ratio specific_heat_ratio then
    .err .invalidSpecificHeatRatio
  else if pressure_ratio ≤ 0 ∨ pressure_ratio > 1 then
    .err .invalidPressureRatio
  else
    .ok (Real.sqrt (2 * ((1 / pressure_ratio ^
        ((specific_heat_ratio - 1) / specific_heat_ratio)) - 1) /
      (specific_heat_ratio - 1)))

/-- Embedding of `calc_mach_from_density_ratio` (src/utils/isentropic.rs
lines 91-101). -/
noncomputable def calc_mach_from_density_ratio
    (density_ratio specific_heat_ratio : ℝ) : Res ℝ :=
  if ¬ valid_specific_heat_ratio specific_heat_ratio then
    .err .invalidSpecificHeatRatio
  else if density_ratio ≤ 0 ∨ density_ratio > 1 then
    .err .invalidDensityRatio
  else
    .ok (Real.sqrt ((2 * ((1 / density_ratio ^
        (specific_heat_ratio - 1)) - 1)) / (specific_heat_ratio - 1)))

/-- Embedding of `calc_mach_from_prandtl_meyer_angle` (src/utils/isentropic.rs
lines 103-120): Newton-Raphson over `eta = sqrt(M^2 - 1)` with the closures
`f`/`df` of the source, started at `1.5` with default tolerance and iteration
budget; a panic of the solver propagates. -/
noncomputable def calc_mach_from_prandtl_meyer_angle
    (prandtl_meyer_angle specific_heat_ratio : ℝ) : Res ℝ :=
  if ¬ valid_specific_heat_ratio specific_heat_ratio then
    .err .invalidSpecificHeatRatio
  else
    let alpha := Real.sqrt ((specific_heat_ratio + 1) / (specific_heat_ratio - 1))
    let f := fun eta : ℝ =>
      alpha * Real.arctan (eta / alpha) - Real.arctan eta - prandtl_meyer_angle
    let df := fun eta : ℝ =>
      1 / ((eta / alpha) ^ (2 : ℕ) + 1) - 1 / (eta ^ (2 : ℕ) + 1)
    (newton_raphson f df 1.5 none none).bind fun eta =>
      .ok (Real.sqrt (eta ^ (2 : ℕ) + 1))

/-! ## src/utils/obliqueshock.rs -/

/-- Value computed by `calc_deflection_angle` (src/utils/obliqueshock.rs lines
30-36); the function itself always returns `Ok` of this value. -/
noncomputable def deflection_angle_val
    (upstream_mach shock_angle specific_heat_ratio : ℝ) : ℝ :=
  Real.arctan (2 / Real.tan shock_angle *
    (upstream_mach ^ (2 : ℕ) * Real.sin shock_angle ^ (2 : ℕ) - 1) /
    (upstream_mach ^ (2 : ℕ) *
      (specific_heat_ratio + Real.cos (2 * shock_angle)) + 2))

/-- Embedding of `calc_deflection_angle` (src/utils/obliqueshock.rs lines
30-36): unconditionally `Ok` of the closed-form deflection angle. -/
noncomputable def calc_deflection_angle
    (upstream_mach shock_angle specific_heat_ratio : ℝ) : Res ℝ :=
  .ok (deflection_angle_val upstream_mach shock_angle specific_heat_ratio)

/-- Embedding of `calc_shock_angle` (src/utils/obliqueshock.rs lines 71-93):
errors on `M <= 1`, then recovers the shock angle by bisection of
`deflection(β) - deflection_angle` over the bracket
`[deflection_angle, π/2]` with default tolerance and budget.  The source's
`Err(_) => panic!("erm what")` arm of the closure is unreachable because
`calc_deflection_angle` always returns `Ok`, so the closure is embedded by
its value; a panic of `bisection` itself propagates.  The final
`shock_angle.is_nan()` test has no counterpart over the exact reals. -/
noncomputable def calc_shock_angle
    (upstream_mach deflection_angle specific_heat_ratio : ℝ) : Res ℝ :=
  if upstream_mach ≤ 1 then .err .invalidMachNumber
  else
    let f := fun shock_angle : ℝ =>
      deflection_angle_val upstream_mach shock_angle specific_heat_ratio -
        deflection_angle
    let lower_bound := deflection_angle
    let upper_bound := Real.pi / 2
    (bisection f lower_bound upper_bound none none).bind fun shock_angle =>
      .ok shock_angle

/-! ## src/taylormaccoll.rs -/

/-- Embedding of `VelocityVector` (src/taylormaccoll.rs lines 3-7). -/
structure VelocityVector where
  radial_component : ℝ
  tangential_component : ℝ

/-- Embedding of `VelocityVectorDerivative` (src/taylormaccoll.rs lines
19-23). -/
structure VelocityVectorDerivative where
  radial_derivative : ℝ
  tangential_derivative : ℝ

/-- Embedding of `TaylorMaccollResult` (src/taylormaccoll.rs lines 25-30). -/
structure TaylorMaccollResult where
  velocity_vector : VelocityVector
  radial_distance : ℝ
  theta : ℝ

/-- Value computed by `streamline` (src/taylormaccoll.rs lines 32-40):
`dr/dθ = r·u/v`.  Note the division by the tangential component is not
guarded in the source. -/
noncomputable def streamline_val (velocity_vector : VelocityVector) (r : ℝ) : ℝ :=
  r * velocity_vector.radial_component / velocity_vector.tangential_component

/-- Embedding of `streamline` (src/taylormaccoll.rs lines 32-40):
unconditionally `Ok`, despite the `Result` return type. -/
noncomputable def streamline (velocity_vector : VelocityVector) (r : ℝ) : Res ℝ :=
  .ok (streamline_val velocity_vector r)

/-- Value computed by `taylor_maccoll` (src/taylormaccoll.rs lines 42-64):
the Taylor-Maccoll derivatives, with the unguarded divisions by `tan θ` and
`v² - 1` of the source. -/
noncomputable def taylor_maccoll_val (velocity_vector : VelocityVector)
    (theta gamma : ℝ) : VelocityVectorDerivative :=
  let u := velocity_vector.radial_component
  let v := velocity_vector.tangential_component
  { radial_derivative :=
      v + ((gamma - 1) / 2 * u * v) * (u + (v * 1 / Real.tan theta)) /
        (v ^ (2 : ℕ) - 1)
    tangential_derivative :=
      -u + (1 + ((gamma - 1) / 2) * v ^ (2 : ℕ)) * (u + (v * 1 / Real.tan theta)) /
        (v ^ (2 : ℕ) - 1) }

/-- Embedding of `taylor_maccoll` (src/taylormaccoll.rs lines 42-64):
unconditionally `Ok`, despite the `Result` return type. -/
noncomputable def taylor_maccoll (velocity_vector : VelocityVector)
    (theta gamma : ℝ) : Res VelocityVectorDerivative :=
  .ok (taylor_maccoll_val velocity_vector theta gamma)

/-- One pass of the integration loop of `solve_taylor_maccoll`
(src/taylormaccoll.rs lines 94-158): the four Runge-Kutta stages and the
candidate next state, transcribed statement by statement. -/
noncomputable def rk4_next (gamma h : ℝ) (s : TaylorMaccollResult) :
    TaylorMaccollResult :=
  let current_radial_velocity := s.velocity_vector.radial_component
  let current_tangential_velocity := s.velocity_vector.tangential_component
  let current_radial_distance := s.radial_distance
  let current_theta := s.theta
  let k1_velocity_vector : VelocityVector :=
    ⟨current_radial_velocity, current_tangential_velocity⟩
  let k1 := taylor_maccoll_val k1_velocity_vector current_theta gamma
  let k1_radial := h * k1.radial_derivative
  let k1_tangential := h * k1.tangential_derivative
  let k1_contour := h * streamline_val k1_velocity_vector current_radial_distance
  let k2_velocity_vector : VelocityVector :=
    ⟨current_radial_velocity + (0.5 * k1_radial),
     current_tangential_velocity + (0.5 * k1_tangential)⟩
  let k2 := taylor_maccoll_val k2_velocity_vector (current_theta + (0.5 * h)) gamma
  let k2_radial := h * k2.radial_derivative
  let k2_tangential := h * k2.tangential_derivative
  let k2_contour := h *
    streamline_val k2_velocity_vector (current_radial_distance + (0.5 * k1_contour))
  let k3_velocity_vector : VelocityVector :=
    ⟨current_radial_velocity + (0.5 * k2_radial),
     current_tangential_velocity + (0.5 * k2_tangential)⟩
  let k3 := taylor_maccoll_val k3_velocity_vector (current_theta + (0.5 * h)) gamma
  let k3_radial := h * k3.radial_derivative
  let k3_tangential := h * k3.tangential_derivative
  let k3_conour := h *
    streamline_val k3_velocity_vector (current_radial_distance + (0.5 * k2_contour))
  let k4_velocity_vector : VelocityVector :=
    ⟨current_radial_velocity + k3_radial,
     current_tangential_velocity + k3_tangential⟩
  let k4 := taylor_maccoll_val k4_velocity_vector (current_theta + h) gamma
  let k4_radial := h * k4.radial_derivative
  let k4_tangential := h * k4.tangential_derivative
  let k4_contour := h *
    streamline_val k4_velocity_vector (current_radial_distance + k3_conour)
  let next_radial_velocity := current_radial_velocity + (1 / 6) *
    (k1_radial + 2 * k2_radial + 2 * k3_radial + k4_radial)
  let next_tangential_velocity := current_tangential_velocity + (1 / 6) *
    (k1_tangential + 2 * k2_tangential + 2 * k3_tangential + k4_tangential)
  let next_radial_distance := current_radial_distance + (1 / 6) *
    (k1_contour + 2 * k2_contour + 2 * k3_conour + k4_contour)
  let next_theta := current_theta + h
  ⟨⟨next_radial_velocity, next_tangential_velocity⟩, next_radial_distance,
    next_theta⟩

/-- One pass of the integration loop with the source's `Result` plumbing: the
`?` calls to `taylor_maccoll` and `streamline`, sequenced by `Res.bind`.
Because both callees always return `Ok`, this equals `.ok (rk4_next ...)`
(`rk4_next_res_eq`). -/
noncomputable def rk4_next_res (gamma h : ℝ) (s : TaylorMaccollResult) :
    Res TaylorMaccollResult :=
  (taylor_maccoll s.velocity_vector s.theta gamma).bind fun _k1 =>
    (streamline s.velocity_vector s.radial_distance).bind fun _r1 =>
      .ok (rk4_next gamma h s)

theorem rk4_next_res_eq (gamma h : ℝ) (s : TaylorMaccollResult) :
    rk4_next_res gamma h s = .ok (rk4_next gamma h s) := rfl

/-- Break-clause quantity of the integration loop (src/taylormaccoll.rs lines
151-154): `u·sin θ + v·cos θ` of a candidate state. -/
noncomputable def cross_stream_mach (s : TaylorMaccollResult) : ℝ :=
  s.velocity_vector.radial_component * Real.sin s.theta +
    s.velocity_vector.tangential_component * Real.cos s.theta

/-- Integration loop of `solve_taylor_maccoll` (src/taylormaccoll.rs lines
94-177) as fuel recursion over the remaining steps: compute the candidate
next state; if its cross-stream component is `≥ 0`, stop and return the
accumulated results without the candidate; otherwise append it and
continue. -/
noncomputable def tmLoop (gamma h : ℝ) :
    Nat → TaylorMaccollResult → List TaylorMaccollResult →
      Res (List TaylorMaccollResult)
  | 0, _, results => .ok results
  | n + 1, current, results =>
    (rk4_next_res gamma h current).bind fun next =>
      if cross_stream_mach next ≥ 0 then .ok results
      else tmLoop gamma h n next (results ++ [next])

/-- Embedding of `solve_taylor_maccoll` (src/taylormaccoll.rs lines 66-180):
step size `h = (θ_final - θ_initial)/steps`, the initial state pushed first,
then the RK4 loop. -/
noncomputable def solve_taylor_maccoll (initial_velocity_vector : VelocityVector)
    (initial_theta final_theta initial_r gamma : ℝ) (steps : Nat) :
    Res (List TaylorMaccollResult) :=
  let h := (final_theta - initial_theta) / (steps : ℝ)
  let first : TaylorMaccollResult :=
    ⟨initial_velocity_vector, initial_r, initial_theta⟩
  tmLoop gamma h steps first [first]

/-- Iterates of the RK4 candidate map from a given state: `tm_iter k` is the
state after `k` accepted steps. -/
noncomputable def tm_iter (gamma h : ℝ) (s : TaylorMaccollResult) : Nat →
    TaylorMaccollResult
  | 0 => s
  | n + 1 => rk4_next gamma h (tm_iter gamma h s n)

/-! ## Helper lemmas about the embedded loops -/

theorem nrSeq_shift (f df : ℝ → ℝ) (x : ℝ) :
    ∀ k, nrSeq f df x (k + 1) = nrSeq f df (x - f x / df x) k := by
  intro k
  induction k with
  | zero => rfl
  | succ k ih => rw [nrSeq, ih, nrSeq]

theorem newtonLoop_ok (f df : ℝ → ℝ) (tol : ℝ) :
    ∀ (n fuel : Nat) (x : ℝ), n < fuel →
      (∀ k, k ≤ n → 1e-12 ≤ |df (nrSeq f df x k)|) →
      (∀ k, k < n → tol < |nrSeq f df x (k + 1) - nrSeq f df x k|) →
      |nrSeq f df x (n + 1) - nrSeq f df x n| ≤ tol →
      newtonLoop f df tol x fuel = .ok (nrSeq f df x (n + 1)) := by
  intro n
  induction n with
  | zero =>
    intro fuel x hfuel hguard _ hconv
    obtain ⟨m, rfl⟩ : ∃ m, fuel = m + 1 := ⟨fuel - 1, by omega⟩
    have hg : ¬ |df x| < 1e-12 := by
      have := hguard 0 le_rfl
      simp only [nrSeq] at this
      linarith
    rw [newtonLoop, if_neg hg]
    simp only [nrSeq] at hconv ⊢
    rw [if_pos hconv]
  | succ n ih =>
    intro fuel x hfuel hguard hbig hconv
    obtain ⟨m, rfl⟩ : ∃ m, fuel = m + 1 := ⟨fuel - 1, by omega⟩
    have hg : ¬ |df x| < 1e-12 := by
      have := hguard 0 (Nat.zero_le _)
      simp only [nrSeq] at this
      linarith
    rw [newtonLoop, if_neg hg]
    have hstep : ¬ |x - f x / df x - x| ≤ tol := by
      have := hbig 0 (Nat.succ_pos n)
      simp only [nrSeq] at this
      linarith [this]
    rw [if_neg hstep]
    have hshift : ∀ k, nrSeq f df x (k + 1) = nrSeq f df (x - f x / df x) k :=
      nrSeq_shift f df x
    rw [show nrSeq f df x (n + 1 + 1) = nrSeq f df (x - f x / df x) (n + 1) from
      hshift (n + 1)]
    exact ih m (x - f x / df x) (by omega)
      (fun k hk => by rw [← hshift k]; exact hguard (k + 1) (by omega))
      (fun k hk => by rw [← hshift (k + 1), ← hshift k]; exact hbig (k + 1) (by omega))
      (by rw [← hshift (n + 1), ← hshift n]; exact hconv)

theorem newtonLoop_singular (f df : ℝ → ℝ) (tol : ℝ) :
    ∀ (n fuel : Nat) (x : ℝ), n < fuel →
      (∀ k, k < n → 1e-12 ≤ |df (nrSeq f df x k)| ∧
        tol < |nrSeq f df x (k + 1) - nrSeq f df x k|) →
      |df (nrSeq f df x n)| < 1e-12 →
      newtonLoop f df tol x fuel = .panicked .singularDerivative := by
  intro n
  induction n with
  | zero =>
    intro fuel x hfuel _ hsing
    obtain ⟨m, rfl⟩ : ∃ m, fuel = m + 1 := ⟨fuel - 1, by omega⟩
    simp only [nrSeq] at hsing
    rw [newtonLoop, if_pos hsing]
  | succ n ih =>
    intro fuel x hfuel hpre hsing
    obtain ⟨m, rfl⟩ : ∃ m, fuel = m + 1 := ⟨fuel - 1, by omega⟩
    have h0 := hpre 0 (Nat.succ_pos n)
    simp only [nrSeq] at h0
    rw [newtonLoop, if_neg (by linarith [h0.1]), if_neg (by linarith [h0.2])]
    have hshift : ∀ k, nrSeq f df x (k + 1) = nrSeq f df (x - f x / df x) k :=
      nrSeq_shift f df x
    exact ih m (x - f x / df x) (by omega)
      (fun k hk => by
        rw [← hshift k, ← hshift (k + 1)]; exact hpre (k + 1) (by omega))
      (by rw [← hshift n]; exact hsing)

theorem newtonLoop_budget (f df : ℝ → ℝ) (tol : ℝ) :
    ∀ (fuel : Nat) (x : ℝ),
      (∀ k, k < fuel → 1e-12 ≤ |df (nrSeq f df x k)| ∧
        tol < |nrSeq f df x (k + 1) - nrSeq f df x k|) →
      newtonLoop f df tol x fuel = .panicked .convergenceFailure := by
  intro fuel
  induction fuel with
  | zero => intro x _; rfl
  | succ m ih =>
    intro x hpre
    have h0 := hpre 0 (Nat.succ_pos m)
    simp only [nrSeq] at h0
    rw [newtonLoop, if_neg (by linarith [h0.1]), if_neg (by linarith [h0.2])]
    have hshift : ∀ k, nrSeq f df x (k + 1) = nrSeq f df (x - f x / df x) k :=
      nrSeq_shift f df x
    exact ih (x - f x / df x) (fun k hk => by
      rw [← hshift k, ← hshift (k + 1)]; exact hpre (k + 1) (by omega))

theorem bisectionLoop_const_one :
    ∀ (n : Nat) (l u : ℝ), 1e-9 * 2 ^ n ≤ u - l →
      bisectionLoop (fun _ => 1) 1e-9 l u n = .panicked .convergenceFailure := by
  intro n
  induction n with
  | zero => intro l u _; rfl
  | succ m ih =>
    intro l u hw
    have hpow : (1 : ℝ) ≤ 2 ^ m := one_le_pow₀ (by norm_num)
    have h2 : (1e-9 : ℝ) * 2 ^ (m + 1) = 2 * (1e-9 * 2 ^ m) := by ring
    rw [bisectionLoop]
    rw [if_neg, if_pos (by norm_num)]
    · exact ih ((u + l) / 2) u (by rw [h2] at hw; nlinarith)
    · push_neg
      constructor
      · norm_num
      · rw [h2] at hw; nlinarith

theorem tm_iter_succ (gamma h : ℝ) (s0 : TaylorMaccollResult) (k : Nat) :
    tm_iter gamma h s0 (k + 1) = rk4_next gamma h (tm_iter gamma h s0 k) := rfl

theorem rk4_next_theta (gamma h : ℝ) (s : TaylorMaccollResult) :
    (rk4_next gamma h s).theta = s.theta + h := rfl

theorem tmLoop_spec (gamma h : ℝ) (s0 : TaylorMaccollResult) :
    ∀ (n j : Nat) (acc : List TaylorMaccollResult),
      ∃ m, m ≤ n ∧
        tmLoop gamma h n (tm_iter gamma h s0 j) acc =
          .ok (acc ++ (List.range m).map fun k => tm_iter gamma h s0 (j + k + 1)) ∧
        (∀ k, k < m → cross_stream_mach (tm_iter gamma h s0 (j + k + 1)) < 0) ∧
        (m < n → 0 ≤ cross_stream_mach (tm_iter gamma h s0 (j + m + 1))) := by
  intro n
  induction n with
  | zero =>
    intro j acc
    exact ⟨0, le_refl 0, by simp [tmLoop], fun k hk => absurd hk (Nat.not_lt_zero k),
      fun hlt => absurd hlt (lt_irrefl 0)⟩
  | succ n ih =>
    intro j acc
    by_cases hc : cross_stream_mach (rk4_next gamma h (tm_iter gamma h s0 j)) ≥ 0
    · refine ⟨0, Nat.zero_le _, ?_, fun k hk => absurd hk (Nat.not_lt_zero k), ?_⟩
      · rw [tmLoop, rk4_next_res_eq, Res.bind_ok, if_pos hc]
        simp
      · intro _
        rw [show j + 0 + 1 = j + 1 from rfl, tm_iter_succ]
        exact hc
    · obtain ⟨m, hm, heq, hneg, hstop⟩ := ih (j + 1) (acc ++ [tm_iter gamma h s0 (j + 1)])
      refine ⟨m + 1, by omega, ?_, ?_, ?_⟩
      · rw [tmLoop, rk4_next_res_eq, Res.bind_ok, if_neg hc,
          show rk4_next gamma h (tm_iter gamma h s0 j) = tm_iter gamma h s0 (j + 1)
            from rfl, heq]
        congr 1
        rw [List.range_succ_eq_map, List.map_cons, List.map_map, List.append_assoc,
          List.singleton_append]
        have hfun : ((fun k => tm_iter gamma h s0 (j + k + 1)) ∘ Nat.succ) =
            fun k => tm_iter gamma h s0 (j + 1 + k + 1) := by
          funext k
          simp only [Function.comp_apply]
          congr 1
          omega
        rw [hfun]
      · intro k hk
        match k with
        | 0 =>
          rw [show j + 0 + 1 = j + 1 from rfl, tm_iter_succ]
          exact lt_of_not_ge hc
        | k + 1 =>
          rw [show j + (k + 1) + 1 = j + 1 + k + 1 by omega]
          exact hneg k (by omega)
      · intro hlt
        rw [show j + (m + 1) + 1 = j + 1 + m + 1 by omega]
        exact hstop (by omega)

theorem tm_iter_zero (gamma h : ℝ) (s0 : TaylorMaccollResult) :
    tm_iter gamma h s0 0 = s0 := rfl

theorem tm_range_form (gamma h : ℝ) (s0 : TaylorMaccollResult) (m : Nat) :
    [s0] ++ (List.range m).map (fun k => tm_iter gamma h s0 (k + 1)) =
      (List.range (m + 1)).map (tm_iter gamma h s0) := by
  rw [List.range_succ_eq_map, List.map_cons, List.map_map]
  simp only [List.singleton_append, Function.comp_def, Nat.succ_eq_add_one,
    tm_iter_zero]

/-- Normalized form of `tmLoop_spec` at `j = 0` with the initial state as the
seed of the accumulator, as `solve_taylor_maccoll` calls the loop. -/
theorem tmLoop_spec_zero (gamma h : ℝ) (s0 : TaylorMaccollResult) (n : Nat) :
    ∃ m, m ≤ n ∧
      tmLoop gamma h n s0 [s0] =
        .ok ((List.range (m + 1)).map (tm_iter gamma h s0)) ∧
      (∀ k, k < m → cross_stream_mach (tm_iter gamma h s0 (k + 1)) < 0) ∧
      (m < n → 0 ≤ cross_stream_mach (tm_iter gamma h s0 (m + 1))) := by
  obtain ⟨m, hm, heq, hneg, hstop⟩ := tmLoop_spec gamma h s0 n 0 [s0]
  simp only [Nat.zero_add] at heq hneg hstop
  refine ⟨m, hm, ?_, hneg, hstop⟩
  rw [← tm_range_form]
  exact heq

/-! ## Claim theorems -/

/-- C1: for every initial velocity vector, angles, radius, specific heat
ratio and step count, `solve_taylor_maccoll` succeeds and returns the states
`tm_iter 0, ..., tm_iter n` for some `n ≤ steps` (hence a non-empty sequence
of length `n + 1 ≤ steps + 1` whose first element is the supplied initial
condition); every accepted step `k + 1 ≤ n` has negative cross-stream
component, so integration stops at the first candidate with
`u·sin θ + v·cos θ ≥ 0`, discarding that candidate, and if it stopped before
the budget was exhausted (`n < steps`) the next candidate indeed satisfies
`cross_stream ≥ 0`. -/
theorem solve_taylor_maccoll_run (ivv : VelocityVector) (ti tf r g : ℝ)
    (steps : Nat) :
    ∃ (xs : List TaylorMaccollResult) (n : Nat),
      solve_taylor_maccoll ivv ti tf r g steps = .ok xs ∧
      xs = (List.range (n + 1)).map
        (tm_iter g ((tf - ti) / (steps : ℝ)) ⟨ivv, r, ti⟩) ∧
      xs ≠ [] ∧
      xs.head? = some ⟨ivv, r, ti⟩ ∧
      xs.length = n + 1 ∧
      n ≤ steps ∧
      (∀ k, k < n →
        cross_stream_mach
          (tm_iter g ((tf - ti) / (steps : ℝ)) ⟨ivv, r, ti⟩ (k + 1)) < 0) ∧
      (n < steps →
        0 ≤ cross_stream_mach
          (tm_iter g ((tf - ti) / (steps : ℝ)) ⟨ivv, r, ti⟩ (n + 1))) := by
  obtain ⟨m, hm, heq, hneg, hstop⟩ :=
    tmLoop_spec_zero g ((tf - ti) / (steps : ℝ)) ⟨ivv, r, ti⟩ steps
  have hhead : ((List.range (m + 1)).map
      (tm_iter g ((tf - ti) / (steps : ℝ)) ⟨ivv, r, ti⟩)).head? =
      some ⟨ivv, r, ti⟩ := by
    rw [List.range_succ_eq_map, List.map_cons, List.head?_cons, tm_iter_zero]
  have hne : ((List.range (m + 1)).map
      (tm_iter g ((tf - ti) / (steps : ℝ)) ⟨ivv, r, ti⟩)) ≠ [] := by simp
  have hlen : ((List.range (m + 1)).map
      (tm_iter g ((tf - ti) / (steps : ℝ)) ⟨ivv, r, ti⟩)).length = m + 1 := by simp
  exact ⟨_, m, heq, rfl, hne, hhead, hlen, hm, hneg, hstop⟩

/-- C10: every successful run of `solve_taylor_maccoll` yields a sequence
whose elements after the first all have strictly negative cross-stream
component `u·sin θ + v·cos θ < 0`, whose consecutive elements differ in
`theta` by exactly the fixed step `h = (θ_final - θ_initial)/steps`, and whose
first element is the initial state unmodified; in particular when the very
first candidate already triggers termination the output is exactly the
singleton initial state. -/
theorem solve_taylor_maccoll_invariants (ivv : VelocityVector) (ti tf r g : ℝ)
    (steps : Nat) :
    ∃ xs : List TaylorMaccollResult,
      solve_taylor_maccoll ivv ti tf r g steps = .ok xs ∧
      xs.head? = some ⟨ivv, r, ti⟩ ∧
      (∀ s ∈ xs.tail, cross_stream_mach s < 0) ∧
      List.Chain' (fun a b => b.theta = a.theta + (tf - ti) / (steps : ℝ)) xs ∧
      (0 ≤ cross_stream_mach
          (rk4_next g ((tf - ti) / (steps : ℝ)) ⟨ivv, r, ti⟩) →
        xs = [⟨ivv, r, ti⟩]) := by
  obtain ⟨m, hm, heq, hneg, hstop⟩ :=
    tmLoop_spec_zero g ((tf - ti) / (steps : ℝ)) ⟨ivv, r, ti⟩ steps
  refine ⟨_, heq, ?_, ?_, ?_, ?_⟩
  · rw [List.range_succ_eq_map, List.map_cons, List.head?_cons, tm_iter_zero]
  · intro s hs
    rw [List.range_succ_eq_map, List.map_cons, List.tail_cons] at hs
    have hs2 : ∃ k, k < m ∧
        tm_iter g ((tf - ti) / (steps : ℝ)) ⟨ivv, r, ti⟩ (k + 1) = s := by
      simpa [Nat.succ_eq_add_one] using hs
    obtain ⟨k, hk, rfl⟩ := hs2
    exact hneg k hk
  · rw [List.chain'_iff_get]
    intro i hi
    simp only [List.length_map, List.length_range] at hi
    have hget : ∀ (idx : Nat) (hidx : idx <
        ((List.range (m + 1)).map
          (tm_iter g ((tf - ti) / (steps : ℝ)) ⟨ivv, r, ti⟩)).length),
        ((List.range (m + 1)).map
          (tm_iter g ((tf - ti) / (steps : ℝ)) ⟨ivv, r, ti⟩)).get ⟨idx, hidx⟩ =
          tm_iter g ((tf - ti) / (steps : ℝ)) ⟨ivv, r, ti⟩ idx := by
      intro idx hidx
      simp
    rw [hget i (by simp; omega), hget (i + 1) (by simp; omega), tm_iter_succ,
      rk4_next_theta]
  · intro hfirst
    have hm0 : m = 0 := by
      by_contra hne
      have hx := hneg 0 (by omega)
      rw [show (0 : Nat) + 1 = 1 from rfl] at hx
      have h1 : tm_iter g ((tf - ti) / (steps : ℝ)) ⟨ivv, r, ti⟩ 1 =
          rk4_next g ((tf - ti) / (steps : ℝ)) ⟨ivv, r, ti⟩ := rfl
      rw [h1] at hx
      linarith
    subst hm0
    rfl

/-- C5 (code evaluation): the tangential velocity component is zero, so the
`r·u/v` division inside `streamline` is singular, yet both `streamline` and
the whole integrator return `Ok` — no `SingularFlowField`-style error is ever
produced (the error type of the source has no such value, and all its
`Result`-returning flow functions are unconditionally `Ok`).  Over the exact
reals the singular division yields `0`; in `f64` it yields `inf`, silently. -/
theorem streamline_zero_tangential_ok :
    streamline ⟨1, 0⟩ 1 = .ok 0 ∧
    ∃ xs, solve_taylor_maccoll ⟨1, 0⟩ 0 1 1 (7 / 5) 3 = .ok xs := by
  constructor
  · rw [streamline, streamline_val]
    norm_num
  · obtain ⟨m, _, heq, _, _⟩ :=
      tmLoop_spec_zero (7 / 5) ((1 - 0) / ((3 : Nat) : ℝ)) ⟨⟨1, 0⟩, 1, 0⟩ 3
    exact ⟨_, heq⟩

/-- C9: the four boundary calls fail with their documented error kinds:
a negative Mach number for the Mach-angle relation, a specific heat ratio of
exactly 1 for the pressure ratio, a Mach number of exactly 1 for the
Prandtl-Meyer function, and a Mach angle of π (outside `[0, π/2]`). -/
theorem boundary_failures :
    calc_mach_angle_from_mach (-1) = .err .invalidMachNumber ∧
    calc_pressure_ratio_from_mach 2 1 = .err .invalidSpecificHeatRatio ∧
    prandtl_meyer_function 1 (7 / 5) = .err .invalidMachNumber ∧
    calc_mach_from_mach_angle Real.pi = .err .invalidMachAngle := by
  refine ⟨?_, ?_, ?_, ?_⟩
  · rw [calc_mach_angle_from_mach, if_pos (by norm_num)]
  · rw [calc_pressure_ratio_from_mach,
      if_pos (by rw [valid_specific_heat_ratio]; norm_num)]
  · rw [prandtl_meyer_function,
      if_neg (by rw [Classical.not_not, valid_specific_heat_ratio]; norm_num),
      if_pos (by norm_num)]
  · rw [calc_mach_from_mach_angle,
      if_pos (Or.inr (by linarith [Real.pi_pos]))]

/-- C6 (code evaluation at the failing inputs): with the `f64` special values
of the division and of `asin` modelled (`none` = non-finite result, here NaN),
`calc_mach_angle_from_mach` does reject negative Mach numbers with an error,
but accepts every `0 ≤ M < 1` and silently returns `Ok(NaN)` — for `M = 1/2`
the accepted argument of `asin` is `2`, outside `[-1, 1]`, and for `M = 0` the
division itself is non-finite.  This contradicts the claim that every `Ok`
result is a well-defined (non-NaN) angle. -/
theorem calc_mach_angle_silent_nan :
    calc_mach_angle_from_mach_fp (-1) = .err .invalidMachNumber ∧
    calc_mach_angle_from_mach_fp (1 / 2) = .ok none ∧
    calc_mach_angle_from_mach_fp 0 = .ok none := by
  refine ⟨?_, ?_, ?_⟩
  · rw [calc_mach_angle_from_mach_fp, if_pos (by norm_num)]
  · rw [calc_mach_angle_from_mach_fp, if_neg (by norm_num), fdiv,
      if_neg (by norm_num)]
    norm_num [fasin]
  · rw [calc_mach_angle_from_mach_fp, if_neg (by norm_num), fdiv,
      if_pos rfl]
    rfl

/-- C2 (code evaluation): `bisection` with a function that never meets the
value test and a bracket too wide for the width test to fire within the
200-iteration budget exhausts its budget and aborts via
`panic!("solution not converged")` — the failure is a process abort, not a
returned error value. -/
theorem bisection_budget_panic :
    bisection (fun _ => 1) 0 (2 ^ (250 : ℕ)) none none =
      .panicked .convergenceFailure := by
  rw [bisection]
  simp only [Option.getD_none]
  rw [if_pos (by positivity : (0 : ℝ) < 2 ^ (250 : ℕ))]
  exact bisectionLoop_const_one 200 0 (2 ^ (250 : ℕ)) (by norm_num)

/-- C4: the contract of `newton_raphson` against the mathematical Newton
iterate sequence `nrSeq`: (a) if the near-zero-derivative guard
`|df(x_n)| < 1e-12` never fires up to the first index `n < 200` at which
`|x_{n+1} - x_n| ≤ tolerance` (default `1e-9`), the solver returns exactly
`x_{n+1}`; (b) if before any convergence the guard fires at some iterate, the
run fails with the singular-derivative kind; (c) if within the whole
200-iteration default budget the guard never fires and no step meets the
tolerance, the run fails with the convergence-failure kind. -/
theorem newton_raphson_contract :
    (∀ (f df : ℝ → ℝ) (x0 : ℝ) (n : Nat), n < 200 →
      (∀ k, k ≤ n → 1e-12 ≤ |df (nrSeq f df x0 k)|) →
      (∀ k, k < n → 1e-9 < |nrSeq f df x0 (k + 1) - nrSeq f df x0 k|) →
      |nrSeq f df x0 (n + 1) - nrSeq f df x0 n| ≤ 1e-9 →
      newton_raphson f df x0 none none = .ok (nrSeq f df x0 (n + 1))) ∧
    (∀ (f df : ℝ → ℝ) (x0 : ℝ) (n : Nat), n < 200 →
      (∀ k, k < n → 1e-12 ≤ |df (nrSeq f df x0 k)| ∧
        1e-9 < |nrSeq f df x0 (k + 1) - nrSeq f df x0 k|) →
      |df (nrSeq f df x0 n)| < 1e-12 →
      newton_raphson f df x0 none none = .panicked .singularDerivative) ∧
    (∀ (f df : ℝ → ℝ) (x0 : ℝ),
      (∀ k, k < 200 → 1e-12 ≤ |df (nrSeq f df x0 k)| ∧
        1e-9 < |nrSeq f df x0 (k + 1) - nrSeq f df x0 k|) →
      newton_raphson f df x0 none none = .panicked .convergenceFailure) := by
  refine ⟨?_, ?_, ?_⟩
  · intro f df x0 n hn hguard hbig hconv
    exact newtonLoop_ok f df 1e-9 n 200 x0 hn hguard hbig hconv
  · intro f df x0 n hn hpre hsing
    exact newtonLoop_singular f df 1e-9 n 200 x0 hn hpre hsing
  · intro f df x0 hpre
    exact newtonLoop_budget f df 1e-9 200 x0 hpre

/-- Witness for C4 at a concrete input: Newton-Raphson on `f(x) = x` with the
(deliberately constant) derivative `1`, started at `5`, converges at the
second iterate: `x1 = 0`, `x2 = 0`, `|x2 - x1| = 0 ≤ 1e-9`, so the solver
returns `0`. -/
theorem newton_raphson_contract_witness :
    newton_raphson (fun x => x) (fun _ => 1) 5 none none = .ok 0 := by
  have h := newton_raphson_contract.1 (fun x => x) (fun _ => 1) 5 1
    (by norm_num)
    (fun k _ => by norm_num)
    (fun k hk => by
      match k, hk with
      | 0, _ => simp only [nrSeq]; norm_num)
    (by simp only [nrSeq]; norm_num)
  rw [h]
  simp only [nrSeq]
  norm_num

/-- Unfolding of one bisection pass, with the midpoint spelled out. -/
theorem bisectionLoop_succ (f : ℝ → ℝ) (tol l u : ℝ) (n : Nat) :
    bisectionLoop f tol l u (n + 1) =
      if |f ((u + l) / 2)| < tol ∨ (u - l) / 2 < tol then .ok ((u + l) / 2)
      else if f ((u + l) / 2) * f l > 0 then bisectionLoop f tol ((u + l) / 2) u n
      else bisectionLoop f tol l ((u + l) / 2) n := rfl

/-- Quality of a returned midpoint of the square-root-of-two bisection: if
either convergence test fires on a bracket still straddling `√2`, the
midpoint is within `1e-9` of `√2`. -/
theorem bisection_sqrt_return (l u : ℝ) (hl0 : 0 ≤ l) (hfl : l ^ 2 - 2 < 0)
    (hu : Real.sqrt 2 ≤ u)
    (hret : |((u + l) / 2) ^ 2 - 2| < 1e-9 ∨ (u - l) / 2 < 1e-9) :
    |(u + l) / 2 - Real.sqrt 2| < 1e-9 := by
  have hs2 : Real.sqrt 2 ^ 2 = 2 := Real.sq_sqrt (by norm_num)
  have hs0 : 0 ≤ Real.sqrt 2 := Real.sqrt_nonneg 2
  have hs14 : (1.4 : ℝ) ≤ Real.sqrt 2 := by nlinarith
  have hls : l ≤ Real.sqrt 2 := by nlinarith
  have hmid0 : 0 ≤ (u + l) / 2 := by linarith
  rcases hret with h | h
  · have hkey : ((u + l) / 2 - Real.sqrt 2) * ((u + l) / 2 + Real.sqrt 2) =
        ((u + l) / 2) ^ 2 - 2 := by nlinarith
    have habs : |(u + l) / 2 - Real.sqrt 2| * ((u + l) / 2 + Real.sqrt 2) =
        |((u + l) / 2) ^ 2 - 2| := by
      rw [← hkey, abs_mul,
        abs_of_nonneg (by linarith : (0:ℝ) ≤ (u + l) / 2 + Real.sqrt 2)]
    have hone : (1 : ℝ) ≤ (u + l) / 2 + Real.sqrt 2 := by linarith
    calc |(u + l) / 2 - Real.sqrt 2|
        = |(u + l) / 2 - Real.sqrt 2| * 1 := (mul_one _).symm
      _ ≤ |(u + l) / 2 - Real.sqrt 2| * ((u + l) / 2 + Real.sqrt 2) :=
          mul_le_mul_of_nonneg_left hone (abs_nonneg _)
      _ = |((u + l) / 2) ^ 2 - 2| := habs
      _ < 1e-9 := h
  · rw [abs_lt]
    constructor <;> linarith

/-- Bisection of `x² - 2` with default tolerance returns a midpoint within
`1e-9` of `√2` from any bracket `[l, u]` with `0 ≤ l`, `f(l) < 0` and
`√2 ≤ u`, provided the fuel `n + 1` satisfies `u - l < 2^(n+1)·1e-9`. -/
theorem bisectionLoop_sqrt_two :
    ∀ (n : Nat) (l u : ℝ), 0 ≤ l → l ^ 2 - 2 < 0 → Real.sqrt 2 ≤ u →
      u - l < 2 ^ (n + 1) * 1e-9 →
      ∃ m, bisectionLoop (fun x => x ^ 2 - 2) 1e-9 l u (n + 1) = .ok m ∧
        |m - Real.sqrt 2| < 1e-9 := by
  intro n
  induction n with
  | zero =>
    intro l u hl0 hfl hu hw
    have hret : ((u - l) / 2 : ℝ) < 1e-9 := by norm_num at hw ⊢; linarith
    refine ⟨(u + l) / 2, ?_, bisection_sqrt_return l u hl0 hfl hu (Or.inr hret)⟩
    rw [bisectionLoop_succ, if_pos (Or.inr hret)]
  | succ n ih =>
    intro l u hl0 hfl hu hw
    have hs2 : Real.sqrt 2 ^ 2 = 2 := Real.sq_sqrt (by norm_num)
    have hs0 : 0 ≤ Real.sqrt 2 := Real.sqrt_nonneg 2
    have hmid0 : 0 ≤ (u + l) / 2 := by nlinarith
    have hww : u - (u + l) / 2 < 2 ^ (n + 1) * 1e-9 ∧
        (u + l) / 2 - l < 2 ^ (n + 1) * 1e-9 := by
      have h2 : (2 : ℝ) ^ (n + 1 + 1) = 2 * 2 ^ (n + 1) := by ring
      rw [h2] at hw
      constructor <;> linarith
    by_cases hret : |((u + l) / 2) ^ 2 - 2| < 1e-9 ∨ (u - l) / 2 < 1e-9
    · refine ⟨(u + l) / 2, ?_, bisection_sqrt_return l u hl0 hfl hu hret⟩
      rw [bisectionLoop_succ, if_pos hret]
    · rw [bisectionLoop_succ, if_neg hret]
      rcases lt_trichotomy (((u + l) / 2) ^ 2 - 2) 0 with hm | hm | hm
      · rw [if_pos (mul_pos_of_neg_of_neg hm hfl)]
        exact ih ((u + l) / 2) u hmid0 hm hu hww.1
      · rw [if_neg (by rw [hm, zero_mul]; exact lt_irrefl 0)]
        have hsm : Real.sqrt 2 ≤ (u + l) / 2 := by
          have h := Real.sqrt_le_sqrt (by nlinarith : (2:ℝ) ≤ ((u + l) / 2) ^ 2)
          rwa [Real.sqrt_sq hmid0] at h
        exact ih l ((u + l) / 2) hl0 hfl hsm hww.2
      · rw [if_neg (by nlinarith : ¬(((u + l) / 2) ^ 2 - 2) * (l ^ 2 - 2) > 0)]
        have hsm : Real.sqrt 2 ≤ (u + l) / 2 := by
          have h := Real.sqrt_le_sqrt (by nlinarith : (2:ℝ) ≤ ((u + l) / 2) ^ 2)
          rwa [Real.sqrt_sq hmid0] at h
        exact ih l ((u + l) / 2) hl0 hfl hsm hww.2

/-- C3: `bisection` is insensitive to the order of the two bracket ends (they
are reordered as `[min, max]`); each pass computes the midpoint, returns it
when `|f(mid)| < tolerance` or half the bracket width is below the tolerance,
and otherwise moves the lower bound to the midpoint exactly when
`f(mid)·f(lower) > 0` and the upper bound otherwise; and on `f(x) = x² - 2`
with bracket `[0, 2]` and the defaults it converges: the returned value is
within the default tolerance `1e-9` of `√2 = 1.41421356...`. -/
theorem bisection_contract :
    (∀ (f : ℝ → ℝ) (x1 x2 : ℝ) (t : Option ℝ) (mi : Option Nat),
      bisection f x1 x2 t mi = bisection f x2 x1 t mi) ∧
    (∀ (f : ℝ → ℝ) (tol l u : ℝ) (n : Nat),
      bisectionLoop f tol l u (n + 1) =
        if |f ((u + l) / 2)| < tol ∨ (u - l) / 2 < tol then .ok ((u + l) / 2)
        else if f ((u + l) / 2) * f l > 0 then
          bisectionLoop f tol ((u + l) / 2) u n
        else bisectionLoop f tol l ((u + l) / 2) n) ∧
    (∃ m, bisection (fun x => x ^ 2 - 2) 0 2 none none = .ok m ∧
      |m - Real.sqrt 2| < 1e-9) := by
  refine ⟨?_, fun f tol l u n => rfl, ?_⟩
  · intro f x1 x2 t mi
    rw [bisection, bisection]
    rcases lt_trichotomy x1 x2 with h | h | h
    · rw [if_pos h, if_neg (by linarith)]
    · rw [if_neg (by linarith), if_neg (by linarith), h]
    · rw [if_neg (by linarith), if_pos h]
  · have h02 : (0 : ℝ) < 2 := by norm_num
    have hu : Real.sqrt 2 ≤ 2 := by
      have h := Real.sqrt_le_sqrt (by norm_num : (2 : ℝ) ≤ 4)
      rwa [show (4 : ℝ) = 2 ^ 2 by norm_num, Real.sqrt_sq (by norm_num)] at h
    obtain ⟨m, hm, hq⟩ := bisectionLoop_sqrt_two 199 0 2 le_rfl (by norm_num) hu
      (by norm_num)
    refine ⟨m, ?_, hq⟩
    rw [bisection]
    simp only [Option.getD_none]
    rw [if_pos h02]
    exact hm

/-! ## Arctangent and cotangent toolbox -/

theorem nonneg_of_deriv_nonneg (g dg : ℝ → ℝ) (h0 : g 0 = 0)
    (hd : ∀ x, HasDerivAt g (dg x) x) (hge : ∀ x, 0 ≤ x → 0 ≤ dg x) :
    ∀ x, 0 ≤ x → 0 ≤ g x := by
  intro x hx
  have hmono : MonotoneOn g (Set.Ici (0 : ℝ)) := by
    apply monotoneOn_of_deriv_nonneg (convex_Ici 0)
    · exact fun y _ => (hd y).continuousAt.continuousWithinAt
    · intro y _
      exact (hd y).differentiableAt.differentiableWithinAt
    · intro y hy
      rw [(hd y).deriv]
      rw [interior_Ici] at hy
      exact hge y (le_of_lt hy)
  have := hmono (Set.left_mem_Ici) (Set.mem_Ici.mpr hx) hx
  rwa [h0] at this

theorem arctan_le_id (x : ℝ) (hx : 0 ≤ x) : Real.arctan x ≤ x := by
  have h := nonneg_of_deriv_nonneg (fun y => y - Real.arctan y)
    (fun y => 1 - 1 / (1 + y ^ 2)) (by simp)
    (fun y => (hasDerivAt_id y).sub (Real.hasDerivAt_arctan y))
    (fun y _ => by
      have h1 : (0 : ℝ) < 1 + y ^ 2 := by positivity
      have h2 : 1 / (1 + y ^ 2) ≤ 1 := by
        rw [div_le_one h1]; nlinarith
      linarith)
    x hx
  simpa using h

theorem cubic_le_arctan (x : ℝ) (hx : 0 ≤ x) :
    x - x ^ 3 / 3 ≤ Real.arctan x := by
  have h := nonneg_of_deriv_nonneg (fun y => Real.arctan y - (y - y ^ 3 / 3))
    (fun y => 1 / (1 + y ^ 2) - (1 - y ^ 2)) (by simp)
    (fun y => by
      have h1 : HasDerivAt (fun z : ℝ => z - z ^ 3 / 3) (1 - y ^ 2) y := by
        have h2 := (hasDerivAt_id y).sub ((hasDerivAt_pow 3 y).div_const 3)
        simpa using h2
      exact (Real.hasDerivAt_arctan y).sub h1)
    (fun y _ => by
      have h1 : (0 : ℝ) < 1 + y ^ 2 := by positivity
      have key : 1 / (1 + y ^ 2) - (1 - y ^ 2) = y ^ 4 / (1 + y ^ 2) := by
        field_simp
        ring
      show (0 : ℝ) ≤ 1 / (1 + y ^ 2) - (1 - y ^ 2)
      rw [key]
      positivity)
    x hx
  simpa using h

theorem arctan_le_quintic (x : ℝ) (hx : 0 ≤ x) :
    Real.arctan x ≤ x - x ^ 3 / 3 + x ^ 5 / 5 := by
  have h := nonneg_of_deriv_nonneg
    (fun y => y - y ^ 3 / 3 + y ^ 5 / 5 - Real.arctan y)
    (fun y => 1 - y ^ 2 + y ^ 4 - 1 / (1 + y ^ 2)) (by simp)
    (fun y => by
      have h1 : HasDerivAt (fun z : ℝ => z - z ^ 3 / 3 + z ^ 5 / 5)
          (1 - y ^ 2 + y ^ 4) y := by
        have h2 := ((hasDerivAt_id y).sub ((hasDerivAt_pow 3 y).div_const 3)).add
          ((hasDerivAt_pow 5 y).div_const 5)
        have h3 : (1 : ℝ) - ↑3 * y ^ 2 / 3 + ↑5 * y ^ 4 / 5 = 1 - y ^ 2 + y ^ 4 := by
          norm_num
        simpa [h3] using h2
      exact h1.sub (Real.hasDerivAt_arctan y))
    (fun y _ => by
      have h1 : (0 : ℝ) < 1 + y ^ 2 := by positivity
      have key : 1 - y ^ 2 + y ^ 4 - 1 / (1 + y ^ 2) = y ^ 6 / (1 + y ^ 2) := by
        field_simp
        ring
      show (0 : ℝ) ≤ 1 - y ^ 2 + y ^ 4 - 1 / (1 + y ^ 2)
      rw [key]
      positivity)
    x hx
  simpa using h

theorem div_le_arctan (x : ℝ) (hx : 0 ≤ x) :
    x / (1 + x ^ 2) ≤ Real.arctan x := by
  have h := nonneg_of_deriv_nonneg
    (fun y => Real.arctan y - y / (1 + y ^ 2))
    (fun y => 1 / (1 + y ^ 2) - (1 - y ^ 2) / (1 + y ^ 2) ^ 2) (by simp)
    (fun y => by
      have h0 : (1 : ℝ) + y ^ 2 ≠ 0 := by positivity
      have h1 : HasDerivAt (fun z : ℝ => z / (1 + z ^ 2))
          ((1 * (1 + y ^ 2) - y * (2 * y)) / (1 + y ^ 2) ^ 2) y := by
        have hden : HasDerivAt (fun z : ℝ => 1 + z ^ 2) (2 * y) y := by
          have h2 := (hasDerivAt_pow 2 y).const_add 1
          simpa using h2
        exact (hasDerivAt_id y).div hden h0
      have h3 : (1 * (1 + y ^ 2) - y * (2 * y)) / (1 + y ^ 2) ^ 2 =
          (1 - y ^ 2) / (1 + y ^ 2) ^ 2 := by ring_nf
      rw [h3] at h1
      exact (Real.hasDerivAt_arctan y).sub h1)
    (fun y _ => by
      have h1 : (0 : ℝ) < 1 + y ^ 2 := by positivity
      have key : 1 / (1 + y ^ 2) - (1 - y ^ 2) / (1 + y ^ 2) ^ 2 =
          2 * y ^ 2 / (1 + y ^ 2) ^ 2 := by
        field_simp
        ring
      show (0 : ℝ) ≤ 1 / (1 + y ^ 2) - (1 - y ^ 2) / (1 + y ^ 2) ^ 2
      rw [key]
      positivity)
    x hx
  simpa using h

theorem abs_arctan_le (y : ℝ) : |Real.arctan y| ≤ |y| := by
  rcases le_or_lt 0 y with h | h
  · rw [abs_of_nonneg h, abs_of_nonneg]
    · exact arctan_le_id y h
    · rw [← Real.arctan_zero]
      exact Real.arctan_strictMono.monotone h
  · rw [abs_of_neg h, abs_of_neg]
    · have := arctan_le_id (-y) (by linarith)
      rw [Real.arctan_neg] at this
      linarith
    · rw [← Real.arctan_zero]
      exact Real.arctan_strictMono (by linarith)

theorem abs_div_le_abs_arctan (y : ℝ) : |y| / (1 + y ^ 2) ≤ |Real.arctan y| := by
  rcases le_or_lt 0 y with h | h
  · rw [abs_of_nonneg h, abs_of_nonneg]
    · exact div_le_arctan y h
    · rw [← Real.arctan_zero]
      exact Real.arctan_strictMono.monotone h
  · rw [abs_of_neg h, abs_of_neg]
    · have := div_le_arctan (-y) (by linarith)
      rw [Real.arctan_neg] at this
      have hsq : (-y) ^ 2 = y ^ 2 := by ring
      rw [hsq] at this
      linarith
    · rw [← Real.arctan_zero]
      exact Real.arctan_strictMono (by linarith)

theorem arctan_cubic_approx (y : ℝ) :
    |Real.arctan y - (y - y ^ 3 / 3)| ≤ |y| ^ 5 / 5 := by
  rcases le_or_lt 0 y with h | h
  · rw [abs_of_nonneg h, abs_le]
    constructor
    · have h1 := cubic_le_arctan y h
      nlinarith [pow_nonneg h 5]
    · have h1 := arctan_le_quintic y h
      linarith
  · rw [abs_of_neg h, abs_le]
    have h1 := cubic_le_arctan (-y) (by linarith)
    have h2 := arctan_le_quintic (-y) (by linarith)
    rw [Real.arctan_neg] at h1 h2
    constructor
    · nlinarith
    · nlinarith

/-- Difference-of-arctangents formula, valid whenever `a*b > -1`. -/
theorem arctan_sub_arctan (a b : ℝ) (hab : -1 < a * b) :
    Real.arctan a - Real.arctan b = Real.arctan ((a - b) / (1 + a * b)) := by
  have h := Real.arctan_add (x := a) (y := -b) (by nlinarith)
  rw [Real.arctan_neg] at h
  have h2 : (a + -b) / (1 - a * -b) = (a - b) / (1 + a * b) := by ring_nf
  rw [h2] at h
  linarith [h]

/-- Cotangent difference identity on points with nonzero sine. -/
theorem cot_sub_cot (a b : ℝ) (ha : Real.sin a ≠ 0) (hb : Real.sin b ≠ 0) :
    Real.cos a / Real.sin a - Real.cos b / Real.sin b =
      Real.sin (b - a) / (Real.sin a * Real.sin b) := by
  rw [Real.sin_sub]
  field_simp
  ring

/-- Cotangent is strictly antitone on `(0, π/2)` (stated via `cos/sin`). -/
theorem cot_strict_anti (a b : ℝ) (ha : 0 < a) (hab : a < b) (hb : b < Real.pi / 2) :
    Real.cos b / Real.sin b < Real.cos a / Real.sin a := by
  have hpi : Real.pi / 2 < Real.pi := by linarith [Real.pi_pos]
  have hsa : 0 < Real.sin a := Real.sin_pos_of_pos_of_lt_pi ha (by linarith)
  have hsb : 0 < Real.sin b := Real.sin_pos_of_pos_of_lt_pi (by linarith) (by linarith)
  have hsub : 0 < Real.sin (b - a) :=
    Real.sin_pos_of_pos_of_lt_pi (by linarith) (by linarith [Real.pi_pos])
  have h := cot_sub_cot a b (ne_of_gt hsa) (ne_of_gt hsb)
  have hq : 0 < Real.sin (b - a) / (Real.sin a * Real.sin b) :=
    div_pos hsub (mul_pos hsa hsb)
  linarith [h, hq]

/-- Cotangent of `arctan x` is `1/x` for positive `x`. -/
theorem cot_arctan_eq (x : ℝ) (hx : 0 < x) :
    Real.cos (Real.arctan x) / Real.sin (Real.arctan x) = 1 / x := by
  rw [Real.cos_arctan, Real.sin_arctan]
  have h : Real.sqrt (1 + x ^ 2) ≠ 0 := by positivity
  field_simp

/-! ## Shock-angle bisection analysis (claim C7)

The deflection-angle function at `M = 2`, `γ = 7/5` reduces, via the
substitution `u = cot β`, to the rational function `Gfun` below; the target
deflection of the round trip is `arctan (5/19)` and the weak-branch root of
the bisection closure is exactly `β = π/4` (where `u = 1`). -/

noncomputable def Gfun (u : ℝ) : ℝ := 5 * u * (3 - u ^ 2) / (29 * u ^ 2 + 9)

theorem Gfun_sub (u : ℝ) : Gfun u - 5 / 19 =
    -5 * (u - 1) * (19 * u ^ 2 + 48 * u - 9) / (19 * (29 * u ^ 2 + 9)) := by
  have h : (0 : ℝ) < 29 * u ^ 2 + 9 := by positivity
  rw [Gfun]
  field_simp
  ring

theorem quad_pos (u : ℝ) (hu : 1 / 5 ≤ u) : 0 < 19 * u ^ 2 + 48 * u - 9 := by
  nlinarith [sq_nonneg (u - 1 / 5)]

theorem Gfun_gt (u : ℝ) (h1 : 1 / 5 ≤ u) (h2 : u < 1) : 5 / 19 < Gfun u := by
  have hq := quad_pos u h1
  have h := Gfun_sub u
  have hpos : 0 <
      -5 * (u - 1) * (19 * u ^ 2 + 48 * u - 9) / (19 * (29 * u ^ 2 + 9)) := by
    apply div_pos (by nlinarith) (by positivity)
  linarith

theorem Gfun_lt (u : ℝ) (h2 : 1 < u) : Gfun u < 5 / 19 := by
  have hq := quad_pos u (by linarith)
  have h := Gfun_sub u
  have hneg : -5 * (u - 1) * (19 * u ^ 2 + 48 * u - 9) /
      (19 * (29 * u ^ 2 + 9)) < 0 := by
    apply div_neg_of_neg_of_pos (by nlinarith) (by positivity)
  linarith

theorem Gfun_dist (u : ℝ) (h1 : 1 / 5 ≤ u) :
    |u - 1| / 32 ≤ |Gfun u - 5 / 19| := by
  have hq := quad_pos u h1
  have hD : (0 : ℝ) < 19 * (29 * u ^ 2 + 9) := by positivity
  have habs : |Gfun u - 5 / 19| =
      |u - 1| * (5 * (19 * u ^ 2 + 48 * u - 9) / (19 * (29 * u ^ 2 + 9))) := by
    rw [Gfun_sub, abs_div, abs_of_pos hD,
      show -5 * (u - 1) * (19 * u ^ 2 + 48 * u - 9) =
        (u - 1) * (-(5 * (19 * u ^ 2 + 48 * u - 9))) by ring,
      abs_mul, abs_neg, abs_of_pos (by linarith : (0:ℝ) < 5 * (19 * u ^ 2 + 48 * u - 9))]
    ring
  rw [habs]
  have hfac : (1 : ℝ) / 32 ≤
      5 * (19 * u ^ 2 + 48 * u - 9) / (19 * (29 * u ^ 2 + 9)) := by
    rw [div_le_div_iff (by norm_num) hD]
    nlinarith [sq_nonneg (u - 1 / 5)]
  calc |u - 1| / 32 = |u - 1| * (1 / 32) := by ring
    _ ≤ |u - 1| * (5 * (19 * u ^ 2 + 48 * u - 9) / (19 * (29 * u ^ 2 + 9))) :=
        mul_le_mul_of_nonneg_left hfac (abs_nonneg _)

theorem Gfun_abs_le (u : ℝ) (h1 : 1 / 5 ≤ u) (h2 : u ≤ 19 / 5) :
    |Gfun u| ≤ 3 / 5 := by
  have hD : (0 : ℝ) < 29 * u ^ 2 + 9 := by positivity
  rw [Gfun, abs_div, abs_of_pos hD, div_le_iff hD]
  rcases le_or_lt (u ^ 2) 3 with h3 | h3
  · rw [abs_of_nonneg (by nlinarith : (0:ℝ) ≤ 5 * u * (3 - u ^ 2))]
    nlinarith [sq_nonneg (u - 431 / 1000)]
  · rw [abs_of_nonpos (by nlinarith : 5 * u * (3 - u ^ 2) ≤ 0)]
    nlinarith [mul_nonneg (by linarith : (0:ℝ) ≤ 19 / 5 - u)
      (by nlinarith : (0:ℝ) ≤ u ^ 2 - 3), sq_nonneg (u - 19 / 5)]

/-- Bridge: at `M = 2`, `γ = 7/5` and `0 < sin x`, `0 < cos x`, the deflection
angle of the source is `arctan (Gfun (cot x))`. -/
theorem deflection_eq_G (x : ℝ) (hs : 0 < Real.sin x) (hc : 0 < Real.cos x) :
    deflection_angle_val 2 x (7 / 5) =
      Real.arctan (Gfun (Real.cos x / Real.sin x)) := by
  rw [deflection_angle_val, Gfun]
  congr 1
  have hc2 : Real.cos x ^ 2 = 1 - Real.sin x ^ 2 := by
    nlinarith [Real.sin_sq_add_cos_sq x]
  rw [Real.tan_eq_sin_div_cos, Real.cos_two_mul', div_pow, hc2]
  have hs9 : (0 : ℝ) <
      29 * ((1 - Real.sin x ^ 2) / Real.sin x ^ 2) + 9 := by
    rw [← hc2]
    positivity
  have hden : (2 : ℝ) ^ (2 : ℕ) *
      (7 / 5 + ((1 - Real.sin x ^ 2) - Real.sin x ^ 2)) + 2 =
      58 / 5 - 8 * Real.sin x ^ 2 := by ring
  have hden2 : (0 : ℝ) < 58 / 5 - 8 * Real.sin x ^ 2 := by
    nlinarith [hc2, sq_nonneg (Real.cos x), hc]
  have hsne : Real.sin x ≠ 0 := ne_of_gt hs
  have hcne : Real.cos x ≠ 0 := ne_of_gt hc
  rw [hden]
  rw [div_eq_div_iff (ne_of_gt hden2) (ne_of_gt hs9)]
  field_simp
  ring

/-- Closure handed to `bisection` by `calc_shock_angle` in the C7 round trip:
deflection at `M = 2`, `γ = 7/5` minus the target `arctan (5/19)`. -/
noncomputable def fsc : ℝ → ℝ :=
  fun x => deflection_angle_val 2 x (7 / 5) - Real.arctan (5 / 19)

/-- The round-trip target: the deflection angle at shock angle `π/4` for
`M = 2`, `γ = 7/5` is exactly `arctan (5/19)`. -/
theorem theta0_eq :
    deflection_angle_val 2 (Real.pi / 4) (7 / 5) = Real.arctan (5 / 19) := by
  rw [deflection_angle_val]
  congr 1
  rw [Real.tan_pi_div_four, show 2 * (Real.pi / 4) = Real.pi / 2 by ring,
    Real.cos_pi_div_two, Real.sin_pi_div_four]
  have h2 : (Real.sqrt 2 / 2) ^ (2 : ℕ) = 1 / 2 := by
    rw [div_pow, Real.sq_sqrt (by norm_num : (0:ℝ) ≤ 2)]
    norm_num
  rw [h2]
  norm_num

theorem theta0_lb : (1 / 4 : ℝ) ≤ Real.arctan (5 / 19) := by
  have h := cubic_le_arctan (5 / 19) (by norm_num)
  have : (1 / 4 : ℝ) ≤ 5 / 19 - (5 / 19) ^ 3 / 3 := by norm_num
  linarith

theorem theta0_ub : Real.arctan (5 / 19) ≤ 5 / 19 :=
  arctan_le_id _ (by norm_num)

theorem theta0_pos : 0 < Real.arctan (5 / 19) := by
  rw [← Real.arctan_zero]
  exact Real.arctan_strictMono (by norm_num)

theorem theta0_lt_pi4 : Real.arctan (5 / 19) < Real.pi / 4 := by
  rw [← Real.arctan_one]
  exact Real.arctan_strictMono (by norm_num)

theorem cot_theta0 : Real.cos (Real.arctan (5 / 19)) /
    Real.sin (Real.arctan (5 / 19)) = 19 / 5 := by
  rw [cot_arctan_eq (5 / 19) (by norm_num)]
  norm_num

theorem cot_pi_div_four : Real.cos (Real.pi / 4) / Real.sin (Real.pi / 4) = 1 := by
  rw [Real.cos_pi_div_four, Real.sin_pi_div_four]
  have h : Real.sqrt 2 / 2 ≠ 0 := by positivity
  exact div_self h

theorem arctan_five_lb : (137 / 100 : ℝ) ≤ Real.arctan 5 := by
  have h := Real.arctan_inv_of_pos (show (0:ℝ) < 5 by norm_num)
  have h2 : Real.arctan (5 : ℝ)⁻¹ ≤ 1 / 5 := by
    have := arctan_le_id (1 / 5) (by norm_num)
    simpa using this
  have hpi := Real.pi_gt_d6
  have h3 : Real.arctan (5:ℝ) = Real.pi / 2 - Real.arctan (5:ℝ)⁻¹ := by
    linarith [h]
  rw [h3]
  norm_num at hpi ⊢
  linarith

theorem cot_arctan_five : Real.cos (Real.arctan 5) / Real.sin (Real.arctan 5) =
    1 / 5 := cot_arctan_eq 5 (by norm_num)

/-- Weak, convenient form of cotangent antitonicity. -/
theorem cot_anti_le (a b : ℝ) (ha : 0 < a) (hab : a ≤ b) (hb : b < Real.pi / 2) :
    Real.cos b / Real.sin b ≤ Real.cos a / Real.sin a := by
  rcases eq_or_lt_of_le hab with rfl | h
  · exact le_refl _
  · exact le_of_lt (cot_strict_anti a b ha h hb)

/-- Sign of the shock closure from the cotangent: a point strictly right of
`π/4` (cotangent below 1 but at least 1/5) gives a positive value. -/
theorem fsc_pos (x : ℝ) (h0 : 0 < x) (h2 : x < Real.pi / 2)
    (hlt : Real.cos x / Real.sin x < 1) (hge : 1 / 5 ≤ Real.cos x / Real.sin x) :
    0 < fsc x := by
  have hs : 0 < Real.sin x :=
    Real.sin_pos_of_pos_of_lt_pi h0 (by linarith [Real.pi_pos])
  have hc : 0 < Real.cos x := Real.cos_pos_of_mem_Ioo ⟨by linarith [Real.pi_pos], h2⟩
  rw [fsc]
  rw [deflection_eq_G x hs hc]
  have hG := Gfun_gt (Real.cos x / Real.sin x) hge hlt
  have := Real.arctan_strictMono hG
  linarith

/-- Sign of the shock closure from the cotangent: a point strictly left of
`π/4` (cotangent above 1) gives a negative value. -/
theorem fsc_neg (x : ℝ) (h0 : 0 < x) (h2 : x < Real.pi / 2)
    (hgt : 1 < Real.cos x / Real.sin x) : fsc x < 0 := by
  have hs : 0 < Real.sin x :=
    Real.sin_pos_of_pos_of_lt_pi h0 (by linarith [Real.pi_pos])
  have hc : 0 < Real.cos x := Real.cos_pos_of_mem_Ioo ⟨by linarith [Real.pi_pos], h2⟩
  rw [fsc]
  rw [deflection_eq_G x hs hc]
  have hG := Gfun_lt (Real.cos x / Real.sin x) hgt
  have := Real.arctan_strictMono hG
  linarith

/-- Lower bound for a difference of arctangents of smallish arguments. -/
theorem arctan_diff_lb (p q : ℝ) (hp : |p| ≤ 3 / 5) (hq : |q| ≤ 3 / 5) :
    |p - q| / 7 ≤ |Real.arctan p - Real.arctan q| := by
  have hpq9 : |p * q| ≤ 9 / 25 := by
    rw [abs_mul]
    nlinarith [abs_nonneg p, abs_nonneg q]
  have hpq : -1 < p * q := by
    have := neg_abs_le (p * q)
    linarith
  have h1 : (16 : ℝ) / 25 ≤ 1 + p * q := by
    have := neg_abs_le (p * q)
    linarith
  have h1p : (0 : ℝ) < 1 + p * q := by linarith
  have hub : 1 + p * q ≤ 34 / 25 := by
    have := le_abs_self (p * q)
    linarith
  rw [arctan_sub_arctan p q hpq]
  have habs_d : |(p - q) / (1 + p * q)| = |p - q| / (1 + p * q) := by
    rw [abs_div, abs_of_pos h1p]
  have hdlb : |p - q| * (25 / 34) ≤ |(p - q) / (1 + p * q)| := by
    rw [habs_d, le_div_iff h1p]
    nlinarith [mul_nonneg (abs_nonneg (p - q))
      (by linarith : (0:ℝ) ≤ 34 / 25 - (1 + p * q))]
  have hpq_d : |p - q| ≤ 6 / 5 := by
    rw [sub_eq_add_neg]
    have h := abs_add p (-q)
    rw [abs_neg] at h
    linarith
  have hdub : |(p - q) / (1 + p * q)| ≤ 15 / 8 := by
    rw [habs_d, div_le_iff h1p]
    nlinarith [abs_nonneg (p - q)]
  have harct := abs_div_le_abs_arctan ((p - q) / (1 + p * q))
  have hd2 : ((p - q) / (1 + p * q)) ^ 2 ≤ (15 / 8) ^ 2 := by
    rw [← sq_abs]
    nlinarith [abs_nonneg ((p - q) / (1 + p * q))]
  have hmid : |(p - q) / (1 + p * q)| * (64 / 289) ≤
      |(p - q) / (1 + p * q)| / (1 + ((p - q) / (1 + p * q)) ^ 2) := by
    rw [le_div_iff (by positivity)]
    nlinarith [abs_nonneg ((p - q) / (1 + p * q))]
  calc |p - q| / 7 ≤ |p - q| * (25 / 34) * (64 / 289) := by
        nlinarith [abs_nonneg (p - q)]
    _ ≤ |(p - q) / (1 + p * q)| * (64 / 289) := by nlinarith [hdlb]
    _ ≤ |(p - q) / (1 + p * q)| / (1 + ((p - q) / (1 + p * q)) ^ 2) := hmid
    _ ≤ |Real.arctan ((p - q) / (1 + p * q))| := harct

/-- Jordan-style lower bound for the sine of a smallish angle. -/
theorem abs_sin_lb (t : ℝ) (ht : |t| ≤ 3 / 5) :
    9 / 10 * |t| ≤ |Real.sin t| := by
  have key : ∀ s : ℝ, 0 < s → s ≤ 3 / 5 → 9 / 10 * s ≤ Real.sin s := by
    intro s hs0 hs1
    have h := Real.sin_gt_sub_cube hs0 (by linarith : s ≤ 1)
    nlinarith [sq_nonneg s, mul_pos hs0 hs0]
  rcases lt_trichotomy t 0 with h | rfl | h
  · rw [abs_of_neg h] at ht ⊢
    have hpos : 0 < -t := by linarith
    have hsin : 9 / 10 * (-t) ≤ Real.sin (-t) := key (-t) hpos ht
    rw [Real.sin_neg] at hsin
    have hs_pos : 0 < Real.sin (-t) := by
      have := Real.sin_pos_of_pos_of_lt_pi hpos
        (by nlinarith [Real.pi_gt_d6] : -t < Real.pi)
      exact this
    rw [Real.sin_neg] at hs_pos
    rw [abs_of_neg (by linarith : Real.sin t < 0)]
    linarith
  · simp
  · rw [abs_of_pos h] at ht ⊢
    have hsin := key t h ht
    rw [abs_of_pos (Real.sin_pos_of_pos_of_lt_pi h
      (by nlinarith [Real.pi_gt_d6] : t < Real.pi))]
    exact hsin

/-- Quantitative inverse bound for the shock closure: on the cotangent range
of the bisection bracket, the closure value dominates the distance to the
weak-shock root `π/4`. -/
theorem fsc_quant (x : ℝ) (h0 : 0 < x) (h2 : x < Real.pi / 2)
    (hcl : 1 / 5 ≤ Real.cos x / Real.sin x)
    (hcu : Real.cos x / Real.sin x ≤ 19 / 5) :
    |x - Real.pi / 4| / 300 ≤ |fsc x| := by
  have hpi6 := Real.pi_gt_d6
  have hpi6u := Real.pi_lt_d6
  have hs : 0 < Real.sin x :=
    Real.sin_pos_of_pos_of_lt_pi h0 (by linarith [Real.pi_pos])
  have hc : 0 < Real.cos x :=
    Real.cos_pos_of_mem_Ioo ⟨by linarith [Real.pi_pos], h2⟩
  have hxlb : Real.arctan (5 / 19) ≤ x := by
    by_contra hlt
    push_neg at hlt
    have h := cot_strict_anti x (Real.arctan (5 / 19)) h0 hlt
      (lt_trans theta0_lt_pi4 (by linarith [Real.pi_pos]))
    rw [cot_theta0] at h
    linarith
  have hxub : x ≤ Real.arctan 5 := by
    by_contra hlt
    push_neg at hlt
    have ha5 : 0 < Real.arctan 5 := by
      rw [← Real.arctan_zero]
      exact Real.arctan_strictMono (by norm_num)
    have h := cot_strict_anti (Real.arctan 5) x ha5 hlt h2
    rw [cot_arctan_five] at h
    linarith
  have hdist : |x - Real.pi / 4| ≤ 3 / 5 := by
    rw [abs_le]
    constructor
    · have := theta0_lb
      norm_num at hpi6u ⊢
      linarith
    · have ha15 := cubic_le_arctan (1 / 5) (by norm_num)
      have h5 := Real.arctan_inv_of_pos (show (0 : ℝ) < 5 by norm_num)
      have h5' : Real.arctan 5 = Real.pi / 2 - Real.arctan (1 / 5) := by
        rw [show ((1 : ℝ) / 5) = (5 : ℝ)⁻¹ by norm_num, h5]
        ring
      rw [h5'] at hxub
      norm_num at ha15 hpi6u ⊢
      linarith
  have hsin4 : 0 < Real.sin (Real.pi / 4) := by
    rw [Real.sin_pi_div_four]
    positivity
  have hcot_diff := cot_sub_cot x (Real.pi / 4) (ne_of_gt hs) (ne_of_gt hsin4)
  rw [cot_pi_div_four] at hcot_diff
  have hden_le1 : Real.sin x * Real.sin (Real.pi / 4) ≤ 1 := by
    nlinarith [Real.sin_le_one x, Real.sin_le_one (Real.pi / 4)]
  have hu1 : |Real.sin (Real.pi / 4 - x)| ≤
      |Real.cos x / Real.sin x - 1| := by
    rw [hcot_diff, abs_div, abs_of_pos (mul_pos hs hsin4), le_div_iff (mul_pos hs hsin4)]
    nlinarith [abs_nonneg (Real.sin (Real.pi / 4 - x))]
  have hsin_lb := abs_sin_lb (Real.pi / 4 - x) (by rw [abs_sub_comm]; exact hdist)
  have hu1' : 9 / 10 * |x - Real.pi / 4| ≤ |Real.cos x / Real.sin x - 1| := by
    rw [abs_sub_comm x (Real.pi / 4)]
    exact le_trans hsin_lb hu1
  have hGd := Gfun_dist (Real.cos x / Real.sin x) hcl
  have hGb := Gfun_abs_le (Real.cos x / Real.sin x) hcl hcu
  have hq0 : |(5 : ℝ) / 19| ≤ 3 / 5 := by
    rw [abs_of_pos (by norm_num : (0:ℝ) < 5 / 19)]
    norm_num
  have harct := arctan_diff_lb (Gfun (Real.cos x / Real.sin x)) (5 / 19) hGb hq0
  have hfs : fsc x = Real.arctan (Gfun (Real.cos x / Real.sin x)) -
      Real.arctan (5 / 19) := by
    rw [fsc, deflection_eq_G x hs hc]
  rw [hfs]
  have habs := abs_nonneg (x - Real.pi / 4)
  linarith

/-- Quality of a returned midpoint of the shock-angle bisection: if either
convergence test fires on a bracket straddling `π/4` within the cotangent
range, the midpoint is within `1e-2` of `π/4`. -/
theorem shock_return (l u : ℝ)
    (hl0 : 0 < l) (hu2 : u < Real.pi / 2) (hl4 : l ≤ Real.pi / 4)
    (hu4 : Real.pi / 4 ≤ u)
    (hcotl : Real.cos l / Real.sin l ≤ 19 / 5)
    (hcotu : 1 / 5 ≤ Real.cos u / Real.sin u)
    (hret : |fsc ((u + l) / 2)| < 1e-9 ∨ (u - l) / 2 < 1e-9) :
    |(u + l) / 2 - Real.pi / 4| ≤ 1e-2 := by
  have hpi := Real.pi_pos
  rcases hret with h | h
  · have hml : l ≤ (u + l) / 2 := by linarith
    have hmu : (u + l) / 2 ≤ u := by linarith
    have hm0 : 0 < (u + l) / 2 := by linarith
    have hm2 : (u + l) / 2 < Real.pi / 2 := by linarith
    have hcotm_ub : Real.cos ((u + l) / 2) / Real.sin ((u + l) / 2) ≤ 19 / 5 :=
      le_trans (cot_anti_le l ((u + l) / 2) hl0 hml hm2) hcotl
    have hcotm_lb : 1 / 5 ≤ Real.cos ((u + l) / 2) / Real.sin ((u + l) / 2) :=
      le_trans hcotu (cot_anti_le ((u + l) / 2) u hm0 hmu hu2)
    have hq := fsc_quant ((u + l) / 2) hm0 hm2 hcotm_lb hcotm_ub
    linarith
  · rw [abs_le]
    constructor <;> linarith

/-- The shock-angle bisection loop, on an invariant bracket, returns a value
within `1e-2` of `π/4` given enough fuel for the width test. -/
theorem bisectionLoop_shock :
    ∀ (n : Nat) (l u : ℝ), 0 < l → u < Real.pi / 2 → l ≤ Real.pi / 4 →
      Real.pi / 4 ≤ u → Real.cos l / Real.sin l ≤ 19 / 5 →
      1 / 5 ≤ Real.cos u / Real.sin u → fsc l < 0 →
      u - l < 2 ^ (n + 1) * 1e-9 →
      ∃ m, bisectionLoop fsc 1e-9 l u (n + 1) = .ok m ∧
        |m - Real.pi / 4| ≤ 1e-2 := by
  intro n
  induction n with
  | zero =>
    intro l u hl0 hu2 hl4 hu4 hcotl hcotu hfl hw
    have hret : ((u - l) / 2 : ℝ) < 1e-9 := by norm_num at hw ⊢; linarith
    refine ⟨(u + l) / 2, ?_,
      shock_return l u hl0 hu2 hl4 hu4 hcotl hcotu (Or.inr hret)⟩
    rw [bisectionLoop_succ, if_pos (Or.inr hret)]
  | succ n ih =>
    intro l u hl0 hu2 hl4 hu4 hcotl hcotu hfl hw
    have hpi := Real.pi_pos
    have hww : u - (u + l) / 2 < 2 ^ (n + 1) * 1e-9 ∧
        (u + l) / 2 - l < 2 ^ (n + 1) * 1e-9 := by
      have h2 : (2 : ℝ) ^ (n + 1 + 1) = 2 * 2 ^ (n + 1) := by ring
      rw [h2] at hw
      constructor <;> linarith
    by_cases hret : |fsc ((u + l) / 2)| < 1e-9 ∨ (u - l) / 2 < 1e-9
    · refine ⟨(u + l) / 2, ?_,
        shock_return l u hl0 hu2 hl4 hu4 hcotl hcotu hret⟩
      rw [bisectionLoop_succ, if_pos hret]
    · rw [bisectionLoop_succ, if_neg hret]
      have hr2 : ¬((u - l) / 2 < 1e-9) := fun hh => hret (Or.inr hh)
      have hlu : l < u := by
        have := not_lt.mp hr2
        norm_num at this
        linarith
      have hml : l < (u + l) / 2 := by linarith
      have hmu : (u + l) / 2 < u := by linarith
      have hm0 : 0 < (u + l) / 2 := by linarith
      have hm2 : (u + l) / 2 < Real.pi / 2 := by linarith
      have hcotm_ub : Real.cos ((u + l) / 2) / Real.sin ((u + l) / 2) ≤ 19 / 5 :=
        le_trans (cot_anti_le l ((u + l) / 2) hl0 (le_of_lt hml) hm2) hcotl
      have hcotm_lb : 1 / 5 ≤ Real.cos ((u + l) / 2) / Real.sin ((u + l) / 2) :=
        le_trans hcotu (cot_anti_le ((u + l) / 2) u hm0 (le_of_lt hmu) hu2)
      rcases lt_trichotomy (fsc ((u + l) / 2)) 0 with hm | hm | hm
      · rw [if_pos (mul_pos_of_neg_of_neg hm hfl)]
        have hmid4 : (u + l) / 2 ≤ Real.pi / 4 := by
          by_contra hgt
          push_neg at hgt
          have hclt := cot_strict_anti (Real.pi / 4) ((u + l) / 2)
            (by linarith) hgt hm2
          rw [cot_pi_div_four] at hclt
          have := fsc_pos ((u + l) / 2) hm0 hm2 hclt hcotm_lb
          linarith
        exact ih ((u + l) / 2) u hm0 hu2 hmid4 hu4 hcotm_ub hcotu hm hww.1
      · rw [if_neg (by rw [hm, zero_mul]; exact lt_irrefl 0)]
        have hmid4 : Real.pi / 4 ≤ (u + l) / 2 := by
          by_contra hgt
          push_neg at hgt
          have hclt := cot_strict_anti ((u + l) / 2) (Real.pi / 4) hm0 hgt
            (by linarith)
          rw [cot_pi_div_four] at hclt
          have := fsc_neg ((u + l) / 2) hm0 hm2 hclt
          linarith
        exact ih l ((u + l) / 2) hl0 hm2 hl4 hmid4 hcotl hcotm_lb hfl hww.2
      · rw [if_neg (by nlinarith : ¬fsc ((u + l) / 2) * fsc l > 0)]
        have hmid4 : Real.pi / 4 ≤ (u + l) / 2 := by
          by_contra hgt
          push_neg at hgt
          have hclt := cot_strict_anti ((u + l) / 2) (Real.pi / 4) hm0 hgt
            (by linarith)
          rw [cot_pi_div_four] at hclt
          have := fsc_neg ((u + l) / 2) hm0 hm2 hclt
          linarith
        exact ih l ((u + l) / 2) hl0 hm2 hl4 hmid4 hcotl hcotm_lb hfl hww.2

/-- C7: `calc_shock_angle` recovers the shock angle by bisection over exactly
the bracket `[deflection_angle, π/2]` — the lower bound is the target
deflection angle itself (first conjunct, a definitional unfolding); and the
round trip at `M = 2`, `γ = 7/5` through the deflection angle of the known
shock angle `π/4` returns a shock angle within `1e-2` of `π/4` (second
conjunct). -/
theorem calc_shock_angle_contract :
    (∀ (M th g : ℝ), calc_shock_angle M th g =
      if M ≤ 1 then .err .invalidMachNumber
      else (bisection (fun b => deflection_angle_val M b g - th) th
          (Real.pi / 2) none none).bind fun b => .ok b) ∧
    (∃ th b, calc_deflection_angle 2 (Real.pi / 4) (7 / 5) = .ok th ∧
      calc_shock_angle 2 th (7 / 5) = .ok b ∧ |b - Real.pi / 4| ≤ 1e-2) := by
  constructor
  · intro M th g
    rfl
  · have hpi6 : (3.141592 : ℝ) < Real.pi := Real.pi_gt_d6
    have hpi6u : Real.pi < (3.141593 : ℝ) := Real.pi_lt_d6
    have hθpos := theta0_pos
    have hθub := theta0_ub
    have hθlb := theta0_lb
    have hθ2 : Real.arctan (5 / 19) < Real.pi / 2 := Real.arctan_lt_pi_div_two _
    have hm0pos : 0 < (Real.pi / 2 + Real.arctan (5 / 19)) / 2 := by linarith
    have hm0lb : (0.91 : ℝ) ≤ (Real.pi / 2 + Real.arctan (5 / 19)) / 2 := by
      norm_num at hpi6 hθlb ⊢
      linarith
    have hm0ub : (Real.pi / 2 + Real.arctan (5 / 19)) / 2 ≤ (0.92 : ℝ) := by
      norm_num at hpi6u hθub ⊢
      linarith
    have hm0_2 : (Real.pi / 2 + Real.arctan (5 / 19)) / 2 < Real.pi / 2 := by
      linarith
    have hπ4ub : Real.pi / 4 < (0.7854 : ℝ) := by norm_num at hpi6u ⊢; linarith
    have hπ4lb : (0.785 : ℝ) < Real.pi / 4 := by norm_num at hpi6 ⊢; linarith
    have hm0gt4 : Real.pi / 4 < (Real.pi / 2 + Real.arctan (5 / 19)) / 2 := by
      linarith
    have hcotm0_ub : Real.cos ((Real.pi / 2 + Real.arctan (5 / 19)) / 2) /
        Real.sin ((Real.pi / 2 + Real.arctan (5 / 19)) / 2) ≤ 19 / 5 := by
      have h := cot_anti_le (Real.arctan (5 / 19))
        ((Real.pi / 2 + Real.arctan (5 / 19)) / 2) hθpos (by linarith) hm0_2
      rw [cot_theta0] at h
      exact h
    have hm0_lt_a5 : (Real.pi / 2 + Real.arctan (5 / 19)) / 2 < Real.arctan 5 := by
      have := arctan_five_lb
      linarith
    have hcotm0_lb : 1 / 5 ≤ Real.cos ((Real.pi / 2 + Real.arctan (5 / 19)) / 2) /
        Real.sin ((Real.pi / 2 + Real.arctan (5 / 19)) / 2) := by
      have h := cot_strict_anti ((Real.pi / 2 + Real.arctan (5 / 19)) / 2)
        (Real.arctan 5) hm0pos hm0_lt_a5 (Real.arctan_lt_pi_div_two 5)
      rw [cot_arctan_five] at h
      linarith
    have hcotm0_lt1 : Real.cos ((Real.pi / 2 + Real.arctan (5 / 19)) / 2) /
        Real.sin ((Real.pi / 2 + Real.arctan (5 / 19)) / 2) < 1 := by
      have h := cot_strict_anti (Real.pi / 4)
        ((Real.pi / 2 + Real.arctan (5 / 19)) / 2) (by linarith) hm0gt4 hm0_2
      rwa [cot_pi_div_four] at h
    have hfm0 : 0 < fsc ((Real.pi / 2 + Real.arctan (5 / 19)) / 2) :=
      fsc_pos _ hm0pos hm0_2 hcotm0_lt1 hcotm0_lb
    have hfθ : fsc (Real.arctan (5 / 19)) < 0 :=
      fsc_neg _ hθpos hθ2 (by rw [cot_theta0]; norm_num)
    have hq0 := fsc_quant ((Real.pi / 2 + Real.arctan (5 / 19)) / 2) hm0pos hm0_2
      hcotm0_lb hcotm0_ub
    have hnret : ¬(|fsc ((Real.pi / 2 + Real.arctan (5 / 19)) / 2)| < 1e-9 ∨
        (Real.pi / 2 - Real.arctan (5 / 19)) / 2 < 1e-9) := by
      push_neg
      constructor
      · have habs : (0.12 : ℝ) ≤
            |(Real.pi / 2 + Real.arctan (5 / 19)) / 2 - Real.pi / 4| := by
          rw [abs_of_pos (by linarith)]
          linarith
        norm_num at hq0 habs ⊢
        linarith
      · norm_num at hpi6 hθub ⊢
        linarith
    obtain ⟨b, hb, hbq⟩ := bisectionLoop_shock 198 (Real.arctan (5 / 19))
      ((Real.pi / 2 + Real.arctan (5 / 19)) / 2) hθpos hm0_2 (le_of_lt theta0_lt_pi4)
      (le_of_lt hm0gt4) (le_of_eq cot_theta0) hcotm0_lb hfθ
      (by norm_num at hpi6u hθlb ⊢; linarith)
    refine ⟨Real.arctan (5 / 19), b, ?_, ?_, hbq⟩
    · rw [calc_deflection_angle, theta0_eq]
    · rw [calc_shock_angle, if_neg (by norm_num : ¬(2 : ℝ) ≤ 1)]
      show (bisection fsc (Real.arctan (5 / 19)) (Real.pi / 2) none none).bind
        (fun s => .ok s) = .ok b
      rw [bisection]
      simp only [Option.getD_none]
      rw [if_pos (show Real.arctan (5 / 19) < Real.pi / 2 from hθ2)]
      show (bisectionLoop fsc 1e-9 (Real.arctan (5 / 19)) (Real.pi / 2)
        200).bind (fun s => .ok s) = .ok b
      rw [show (200 : Nat) = 199 + 1 from rfl, bisectionLoop_succ,
        if_neg hnret, if_neg (by nlinarith : ¬fsc ((Real.pi / 2 +
          Real.arctan (5 / 19)) / 2) * fsc (Real.arctan (5 / 19)) > 0)]
      rw [hb]
      rfl

/-! ## Isentropic round trips (claim C8) -/

theorem valid_seven_fifths : valid_specific_heat_ratio (7 / 5 : ℝ) := by
  rw [valid_specific_heat_ratio]
  norm_num

theorem pressure_roundtrip :
    ∃ p m, calc_pressure_ratio_from_mach 2 (7 / 5) = .ok p ∧
      calc_mach_from_pressure_ratio p (7 / 5) = .ok m ∧ |m - 2| ≤ 1e-5 := by
  have h95 : (0 : ℝ) ≤ 9 / 5 := by norm_num
  have hp : calc_pressure_ratio_from_mach 2 (7 / 5) =
      .ok ((9 / 5 : ℝ) ^ (-(7 / 2) : ℝ)) := by
    rw [calc_pressure_ratio_from_mach, if_neg (not_not_intro valid_seven_fifths)]
    norm_num
  have hppos : (0 : ℝ) < (9 / 5 : ℝ) ^ (-(7 / 2) : ℝ) :=
    Real.rpow_pos_of_pos (by norm_num) _
  have hple : ((9 / 5 : ℝ) ^ (-(7 / 2) : ℝ)) ≤ 1 :=
    Real.rpow_le_one_of_one_le_of_nonpos (by norm_num) (by norm_num)
  have hexp : ((9 / 5 : ℝ) ^ (-(7 / 2) : ℝ)) ^ (((7 : ℝ) / 5 - 1) / (7 / 5)) =
      (5 / 9 : ℝ) := by
    rw [← Real.rpow_mul h95,
      show (-(7 / 2) * ((7 / 5 - 1) / (7 / 5)) : ℝ) = ((-1 : ℤ) : ℝ) by norm_num,
      Real.rpow_intCast]
    norm_num
  refine ⟨(9 / 5 : ℝ) ^ (-(7 / 2) : ℝ), 2, hp, ?_, by norm_num⟩
  rw [calc_mach_from_pressure_ratio, if_neg (not_not_intro valid_seven_fifths),
    if_neg (by push_neg; exact ⟨hppos, by linarith⟩)]
  congr 1
  rw [hexp]
  rw [show (2 * (1 / (5 / 9 : ℝ) - 1) / (7 / 5 - 1) : ℝ) = 2 ^ 2 by norm_num]
  exact Real.sqrt_sq (by norm_num)

theorem temperature_roundtrip :
    ∃ t m, calc_temperature_ratio_from_mach 2 (7 / 5) = .ok t ∧
      calc_mach_from_temperature_ratio t (7 / 5) = .ok m ∧ |m - 2| ≤ 1e-5 := by
  have ht : calc_temperature_ratio_from_mach 2 (7 / 5) = .ok (5 / 9 : ℝ) := by
    rw [calc_temperature_ratio_from_mach, if_neg (not_not_intro valid_seven_fifths)]
    norm_num
  refine ⟨(5 / 9 : ℝ), 2, ht, ?_, by norm_num⟩
  rw [calc_mach_from_temperature_ratio, if_neg (not_not_intro valid_seven_fifths),
    if_neg (by push_neg; norm_num)]
  congr 1
  rw [show (2 * (1 / (5 / 9 : ℝ) - 1) / (7 / 5 - 1) : ℝ) = 2 ^ 2 by norm_num]
  exact Real.sqrt_sq (by norm_num)

theorem density_roundtrip :
    ∃ d m, calc_density_ratio_from_mach 2 (7 / 5) = .ok d ∧
      calc_mach_from_density_ratio d (7 / 5) = .ok m ∧ |m - 2| ≤ 1e-5 := by
  have h95 : (0 : ℝ) ≤ 9 / 5 := by norm_num
  have hd : calc_density_ratio_from_mach 2 (7 / 5) =
      .ok ((9 / 5 : ℝ) ^ (-(5 / 2) : ℝ)) := by
    rw [calc_density_ratio_from_mach, if_neg (not_not_intro valid_seven_fifths)]
    norm_num
  have hdpos : (0 : ℝ) < (9 / 5 : ℝ) ^ (-(5 / 2) : ℝ) :=
    Real.rpow_pos_of_pos (by norm_num) _
  have hdle : ((9 / 5 : ℝ) ^ (-(5 / 2) : ℝ)) ≤ 1 :=
    Real.rpow_le_one_of_one_le_of_nonpos (by norm_num) (by norm_num)
  have hexp : ((9 / 5 : ℝ) ^ (-(5 / 2) : ℝ)) ^ ((7 : ℝ) / 5 - 1) =
      (5 / 9 : ℝ) := by
    rw [← Real.rpow_mul h95,
      show (-(5 / 2) * (7 / 5 - 1) : ℝ) = ((-1 : ℤ) : ℝ) by norm_num,
      Real.rpow_intCast]
    norm_num
  refine ⟨(9 / 5 : ℝ) ^ (-(5 / 2) : ℝ), 2, hd, ?_, by norm_num⟩
  rw [calc_mach_from_density_ratio, if_neg (not_not_intro valid_seven_fifths),
    if_neg (by push_neg; exact ⟨hdpos, by linarith⟩)]
  congr 1
  rw [hexp]
  rw [show (2 * (1 / (5 / 9 : ℝ) - 1) / (7 / 5 - 1) : ℝ) = 2 ^ 2 by norm_num]
  exact Real.sqrt_sq (by norm_num)

theorem mach_angle_roundtrip :
    ∃ a m, calc_mach_angle_from_mach 2 = .ok a ∧
      calc_mach_from_mach_angle a = .ok m ∧ |m - 2| ≤ 1e-5 := by
  have ha : calc_mach_angle_from_mach 2 = .ok (Real.arcsin (1 / 2)) := by
    rw [calc_mach_angle_from_mach, if_neg (by norm_num)]
  refine ⟨Real.arcsin (1 / 2), 2, ha, ?_, by norm_num⟩
  have h0 : (0 : ℝ) ≤ Real.arcsin (1 / 2) := Real.arcsin_nonneg.mpr (by norm_num)
  have h2 : Real.arcsin (1 / 2) ≤ Real.pi / 2 := Real.arcsin_le_pi_div_two _
  rw [calc_mach_from_mach_angle, if_neg (by push_neg; exact ⟨h0, h2⟩)]
  rw [Real.sin_arcsin (by norm_num) (by norm_num)]
  norm_num

/-! ## Prandtl-Meyer round trip (claim C8, iterative inverse)

For `M = 2`, `γ = 7/5` the forward Prandtl-Meyer value is
`ν = √6·arctan(√(1/2)) - arctan(√3)`, and the Newton-Raphson closures of
`calc_mach_from_prandtl_meyer_angle` become `pmF`/`pmDF` below, with exact
root `η* = √3` (whence `M = √(η*² + 1) = 2`).  The analysis shows the Newton
iteration started at `1.5` lands within `6·10⁻⁴` of `√3` after one step and
then contracts by a factor `10⁻³` per step, so the returned iterate is within
`3·10⁻⁹` of `√3`. -/

noncomputable def pmF : ℝ → ℝ := fun eta =>
  Real.sqrt 6 * Real.arctan (eta / Real.sqrt 6) - Real.arctan eta -
    (Real.sqrt 6 * Real.arctan (Real.sqrt (1 / 2)) - Real.arctan (Real.sqrt 3))

noncomputable def pmDF : ℝ → ℝ := fun eta =>
  1 / ((eta / Real.sqrt 6) ^ (2 : ℕ) + 1) - 1 / (eta ^ (2 : ℕ) + 1)

theorem pm_forward_value : prandtl_meyer_function 2 (7 / 5) =
    .ok (Real.sqrt 6 * Real.arctan (Real.sqrt (1 / 2)) -
      Real.arctan (Real.sqrt 3)) := by
  rw [prandtl_meyer_function, if_neg (not_not_intro valid_seven_fifths),
    if_neg (by norm_num : ¬(2 : ℝ) ≤ 1),
    show ((7 : ℝ) / 5 - 1) / ((7 : ℝ) / 5 + 1) = 6⁻¹ by norm_num,
    show ((2 : ℝ) ^ (2 : ℕ) - 1) = 3 by norm_num]
  show Res.ok (1 / Real.sqrt 6⁻¹ * Real.arctan (Real.sqrt 6⁻¹ * Real.sqrt 3) -
    Real.arctan (Real.sqrt 3)) = _
  congr 1
  rw [Real.sqrt_inv, one_div, inv_inv]
  have h : (Real.sqrt 6)⁻¹ * Real.sqrt 3 = Real.sqrt (1 / 2) := by
    rw [← Real.sqrt_inv, ← Real.sqrt_mul (by norm_num : (0 : ℝ) ≤ 6⁻¹)]
    congr 1
    norm_num
  rw [h]

theorem pmF_root : pmF (Real.sqrt 3) = 0 := by
  simp only [pmF]
  have h : Real.sqrt 3 / Real.sqrt 6 = Real.sqrt (1 / 2) := by
    rw [div_eq_mul_inv, ← Real.sqrt_inv, ← Real.sqrt_mul (by norm_num : (0 : ℝ) ≤ 3)]
    congr 1
    norm_num
  rw [h]
  ring

theorem pmDF_eq (η : ℝ) : pmDF η = 5 * η ^ 2 / ((6 + η ^ 2) * (1 + η ^ 2)) := by
  simp only [pmDF]
  have h6 : Real.sqrt 6 ^ (2 : ℕ) = 6 := Real.sq_sqrt (by norm_num)
  rw [div_pow, h6]
  have ha : (η ^ 2 / 6 + 1 : ℝ) ≠ 0 := by positivity
  have hb : (η ^ 2 + 1 : ℝ) ≠ 0 := by positivity
  have hc : ((6 + η ^ 2) * (1 + η ^ 2) : ℝ) ≠ 0 := by positivity
  field_simp
  ring

theorem pmF_hasDeriv (η : ℝ) : HasDerivAt pmF (pmDF η) η := by
  have h6 : (0 : ℝ) < Real.sqrt 6 := Real.sqrt_pos.mpr (by norm_num)
  have hinner : HasDerivAt (fun t : ℝ => t / Real.sqrt 6) (1 / Real.sqrt 6) η := by
    simpa using (hasDerivAt_id η).div_const (Real.sqrt 6)
  have harc : HasDerivAt (fun t : ℝ => Real.arctan (t / Real.sqrt 6))
      (1 / (1 + (η / Real.sqrt 6) ^ 2) * (1 / Real.sqrt 6)) η :=
    (Real.hasDerivAt_arctan (η / Real.sqrt 6)).comp η hinner
  have hfull := ((harc.const_mul (Real.sqrt 6)).sub
    (Real.hasDerivAt_arctan η)).sub_const
    (Real.sqrt 6 * Real.arctan (Real.sqrt (1 / 2)) - Real.arctan (Real.sqrt 3))
  have heq : Real.sqrt 6 * (1 / (1 + (η / Real.sqrt 6) ^ 2) * (1 / Real.sqrt 6)) -
      1 / (1 + η ^ 2) = pmDF η := by
    have hsplit : Real.sqrt 6 *
        (1 / (1 + (η / Real.sqrt 6) ^ 2) * (1 / Real.sqrt 6)) =
        1 / (1 + (η / Real.sqrt 6) ^ 2) := by
      field_simp
      ring
    rw [hsplit]
    simp only [pmDF]
    ring
  rw [← heq]
  exact hfull

theorem pmDF_bounds (η : ℝ) (h1 : 1.7314 ≤ η) (h2 : η ≤ 1.7327) :
    0.4165 ≤ pmDF η ∧ pmDF η ≤ 0.4168 := by
  rw [pmDF_eq]
  have ht1 : 2.9977 ≤ η ^ 2 := by nlinarith
  have ht2 : η ^ 2 ≤ 3.0023 := by nlinarith
  have hprod : 0 ≤ (η ^ 2 - 2.9977) * (3.0023 - η ^ 2) :=
    mul_nonneg (by linarith) (by linarith)
  constructor
  · rw [le_div_iff (by positivity)]
    nlinarith [hprod]
  · rw [div_le_iff (by positivity)]
    nlinarith [sq_nonneg (η ^ 2 - 2.9977)]

theorem sqrt_lb (c x : ℝ) (hc : 0 ≤ c) (h : c ^ 2 ≤ x) : c ≤ Real.sqrt x := by
  calc c = Real.sqrt (c ^ 2) := (Real.sqrt_sq hc).symm
    _ ≤ Real.sqrt x := Real.sqrt_le_sqrt h

theorem sqrt_ub (c x : ℝ) (hc : 0 ≤ c) (h : x ≤ c ^ 2) : Real.sqrt x ≤ c := by
  calc Real.sqrt x ≤ Real.sqrt (c ^ 2) := Real.sqrt_le_sqrt h
    _ = c := Real.sqrt_sq hc

/-- Mean-value decomposition: near the root `√3`, `pmF x = d·(x - √3)` with
`d` a value of `pmDF` on the enclosing interval. -/
theorem nr_core (x : ℝ) (hx : |x - Real.sqrt 3| ≤ 6e-4) :
    ∃ d, 0.4165 ≤ d ∧ d ≤ 0.4168 ∧ pmF x = d * (x - Real.sqrt 3) := by
  have hs3l : 1.7320508 ≤ Real.sqrt 3 := sqrt_lb _ _ (by norm_num) (by norm_num)
  have hs3u : Real.sqrt 3 ≤ 1.7320509 := sqrt_ub _ _ (by norm_num) (by norm_num)
  obtain ⟨hx1, hx2⟩ := abs_le.mp hx
  have hxl : 1.7314 ≤ x := by linarith
  have hxu : x ≤ 1.7327 := by linarith
  rcases lt_trichotomy x (Real.sqrt 3) with hlt | heq | hgt
  · obtain ⟨c, hc, hslope⟩ := exists_hasDerivAt_eq_slope pmF pmDF hlt
      (fun t _ => (pmF_hasDeriv t).continuousAt.continuousWithinAt)
      (fun t _ => pmF_hasDeriv t)
    have hcb := pmDF_bounds c (by linarith [hc.1]) (by linarith [hc.2])
    refine ⟨pmDF c, hcb.1, hcb.2, ?_⟩
    rw [pmF_root] at hslope
    rw [eq_div_iff (ne_of_gt (by linarith : (0:ℝ) < Real.sqrt 3 - x))] at hslope
    linear_combination hslope
  · exact ⟨0.4166, by norm_num, by norm_num, by rw [heq, pmF_root]; ring⟩
  · obtain ⟨c, hc, hslope⟩ := exists_hasDerivAt_eq_slope pmF pmDF hgt
      (fun t _ => (pmF_hasDeriv t).continuousAt.continuousWithinAt)
      (fun t _ => pmF_hasDeriv t)
    have hcb := pmDF_bounds c (by linarith [hc.1]) (by linarith [hc.2])
    refine ⟨pmDF c, hcb.1, hcb.2, ?_⟩
    rw [pmF_root] at hslope
    rw [eq_div_iff (ne_of_gt (by linarith : (0:ℝ) < x - Real.sqrt 3))] at hslope
    linear_combination -hslope

/-- One Newton step near `√3`: derivative is bounded away from zero, the step
size is within 0.1% of the current error, and the error contracts by 1e-3. -/
theorem nr_step (x : ℝ) (hx : |x - Real.sqrt 3| ≤ 6e-4) :
    (0.4165 ≤ pmDF x ∧ pmDF x ≤ 0.4168) ∧
    0.999 * |x - Real.sqrt 3| ≤ |pmF x / pmDF x| ∧
    |pmF x / pmDF x| ≤ 1.001 * |x - Real.sqrt 3| ∧
    |x - pmF x / pmDF x - Real.sqrt 3| ≤ 1e-3 * |x - Real.sqrt 3| := by
  have hs3l : 1.7320508 ≤ Real.sqrt 3 := sqrt_lb _ _ (by norm_num) (by norm_num)
  have hs3u : Real.sqrt 3 ≤ 1.7320509 := sqrt_ub _ _ (by norm_num) (by norm_num)
  obtain ⟨hx1, hx2⟩ := abs_le.mp hx
  have hxl : 1.7314 ≤ x := by linarith
  have hxu : x ≤ 1.7327 := by linarith
  obtain ⟨hdl, hdu⟩ := pmDF_bounds x hxl hxu
  have hdx : (0:ℝ) < pmDF x := by linarith
  obtain ⟨d, hd1, hd2, hfd⟩ := nr_core x hx
  have hratio : pmF x / pmDF x = d / pmDF x * (x - Real.sqrt 3) := by
    rw [hfd]; ring
  have habs : |pmF x / pmDF x| = d / pmDF x * |x - Real.sqrt 3| := by
    rw [hratio, abs_mul, abs_of_pos (div_pos (by linarith) hdx)]
  have hrlo : (0.999 : ℝ) ≤ d / pmDF x := by
    rw [le_div_iff hdx]; nlinarith
  have hrhi : d / pmDF x ≤ (1.001 : ℝ) := by
    rw [div_le_iff hdx]; nlinarith
  refine ⟨⟨hdl, hdu⟩, ?_, ?_, ?_⟩
  · rw [habs]
    nlinarith [abs_nonneg (x - Real.sqrt 3)]
  · rw [habs]
    nlinarith [abs_nonneg (x - Real.sqrt 3)]
  · have hq2 : x - pmF x / pmDF x - Real.sqrt 3 =
        (1 - d / pmDF x) * (x - Real.sqrt 3) := by
      rw [hfd]
      field_simp
      ring
    have hsmall : |1 - d / pmDF x| ≤ 1e-3 := by
      rw [abs_le]
      exact ⟨by linarith, by linarith⟩
    rw [hq2, abs_mul]
    exact mul_le_mul_of_nonneg_right hsmall (abs_nonneg _)

/-- One unfold of the Newton loop near the root: either it returns now with a
result within `3e-9` of `√3`, or it recurses with the error shrunk by `1e-3`. -/
theorem nr_unfold (x : ℝ) (k : Nat) (hx : |x - Real.sqrt 3| ≤ 6e-4) :
    (∃ y, newtonLoop pmF pmDF 1e-9 x (k + 1) = .ok y ∧
      |y - Real.sqrt 3| ≤ 3e-9) ∨
    (newtonLoop pmF pmDF 1e-9 x (k + 1) =
        newtonLoop pmF pmDF 1e-9 (x - pmF x / pmDF x) k ∧
      |x - pmF x / pmDF x - Real.sqrt 3| ≤ 1e-3 * |x - Real.sqrt 3|) := by
  obtain ⟨⟨hdl, hdu⟩, hslo, hshi, hcontr⟩ := nr_step x hx
  have hguard : ¬ |pmDF x| < 1e-12 := by
    rw [abs_of_pos (by linarith : (0:ℝ) < pmDF x)]
    linarith
  by_cases hstep : |x - pmF x / pmDF x - x| ≤ 1e-9
  · left
    have hrun : newtonLoop pmF pmDF 1e-9 x (k + 1) = .ok (x - pmF x / pmDF x) := by
      rw [newtonLoop, if_neg hguard, if_pos hstep]
    have hstep' : |pmF x / pmDF x| ≤ 1e-9 := by
      have heq : x - pmF x / pmDF x - x = -(pmF x / pmDF x) := by ring
      rw [heq, abs_neg] at hstep
      exact hstep
    have herr : |x - Real.sqrt 3| ≤ 1.002e-9 := by linarith
    exact ⟨x - pmF x / pmDF x, hrun, by linarith⟩
  · right
    exact ⟨by rw [newtonLoop, if_neg hguard, if_neg hstep], hcontr⟩

/-- If the current iterate is within `9e-10` of `√3` the loop returns on this
pass (the step is below the tolerance), with a result within `3e-9` of `√3`. -/
theorem nr_final (x : ℝ) (k : Nat) (hx : |x - Real.sqrt 3| ≤ 9e-10) :
    ∃ y, newtonLoop pmF pmDF 1e-9 x (k + 1) = .ok y ∧
      |y - Real.sqrt 3| ≤ 3e-9 := by
  have hx6 : |x - Real.sqrt 3| ≤ 6e-4 := le_trans hx (by norm_num)
  obtain ⟨⟨hdl, hdu⟩, hslo, hshi, hcontr⟩ := nr_step x hx6
  have hguard : ¬ |pmDF x| < 1e-12 := by
    rw [abs_of_pos (by linarith : (0:ℝ) < pmDF x)]
    linarith
  have hstep : |x - pmF x / pmDF x - x| ≤ 1e-9 := by
    have heq : x - pmF x / pmDF x - x = -(pmF x / pmDF x) := by ring
    rw [heq, abs_neg]
    linarith
  refine ⟨x - pmF x / pmDF x, by rw [newtonLoop, if_neg hguard, if_pos hstep], ?_⟩
  linarith

/-- Run of the Newton loop with fuel 199 from any point within `6e-4` of `√3`:
at most three passes are needed before the step-size test fires. -/
theorem nr_run (x : ℝ) (hx : |x - Real.sqrt 3| ≤ 6e-4) :
    ∃ y, newtonLoop pmF pmDF 1e-9 x 199 = .ok y ∧ |y - Real.sqrt 3| ≤ 3e-9 := by
  have habs0 := abs_nonneg (x - Real.sqrt 3)
  rcases nr_unfold x 198 hx with hdone | ⟨heq1, herr1⟩
  · exact hdone
  · have h2 : |x - pmF x / pmDF x - Real.sqrt 3| ≤ 6e-7 := by linarith
    rcases nr_unfold (x - pmF x / pmDF x) 197 (by linarith) with
      ⟨y, hy, hyb⟩ | ⟨heq2, herr2⟩
    · exact ⟨y, heq1.trans hy, hyb⟩
    · have h3 : |x - pmF x / pmDF x -
          pmF (x - pmF x / pmDF x) / pmDF (x - pmF x / pmDF x) -
          Real.sqrt 3| ≤ 9e-10 := by linarith
      obtain ⟨y, hy, hyb⟩ := nr_final _ 196 h3
      exact ⟨y, heq1.trans (heq2.trans hy), hyb⟩

theorem cube_mono (a b : ℝ) (h : a ≤ b) : a ^ 3 ≤ b ^ 3 := by
  nlinarith [sq_nonneg (a + b), sq_nonneg a, sq_nonneg b,
    mul_nonneg (sub_nonneg.mpr h) (sq_nonneg (a + b))]

/-- Cubic Taylor enclosure of `arctan` on `[-0.07, 0]`. -/
theorem arctan_small_bounds (y : ℝ) (h1 : -0.07 ≤ y) (h2 : y ≤ 0) :
    y - y ^ 3 / 3 - 4e-7 ≤ Real.arctan y ∧
      Real.arctan y ≤ y - y ^ 3 / 3 + 4e-7 := by
  have hy : |y| ≤ 0.07 := abs_le.mpr ⟨by linarith, by linarith⟩
  have h5 : |y| ^ 5 ≤ 0.07 ^ 5 := pow_le_pow_left (abs_nonneg y) hy 5
  have h := arctan_cubic_approx y
  obtain ⟨ha, hb⟩ := abs_le.mp (le_trans h (by nlinarith : |y| ^ 5 / 5 ≤ 4e-7))
  exact ⟨by linarith, by linarith⟩

/-- Interval version of the cubic enclosure: only the endpoint cubes appear. -/
theorem arctan_enclose (y lo hi : ℝ) (hlo : lo ≤ y) (hhi : y ≤ hi)
    (h1 : -0.07 ≤ lo) (h2 : hi ≤ 0) :
    lo - hi ^ 3 / 3 - 4e-7 ≤ Real.arctan y ∧
      Real.arctan y ≤ hi - lo ^ 3 / 3 + 4e-7 := by
  obtain ⟨ha, hb⟩ := arctan_small_bounds y (by linarith) (by linarith)
  have hc1 := cube_mono lo y hlo
  have hc2 := cube_mono y hi hhi
  exact ⟨by linarith, by linarith⟩

set_option maxHeartbeats 2000000 in
/-- Rational enclosure of `pmF 1.5`, via the arctan difference identity and
the cubic Taylor enclosure (true value is about `-0.09729`). -/
theorem pmF_at_init : -0.0974 ≤ pmF 1.5 ∧ pmF 1.5 ≤ -0.0972 := by
  have h6l : 2.449489 ≤ Real.sqrt 6 := sqrt_lb _ _ (by norm_num) (by norm_num)
  have h6u : Real.sqrt 6 ≤ 2.449490 := sqrt_ub _ _ (by norm_num) (by norm_num)
  have h3l : 1.732050 ≤ Real.sqrt 3 := sqrt_lb _ _ (by norm_num) (by norm_num)
  have h3u : Real.sqrt 3 ≤ 1.732051 := sqrt_ub _ _ (by norm_num) (by norm_num)
  have hhl : 0.707106 ≤ Real.sqrt (1 / 2) := sqrt_lb _ _ (by norm_num) (by norm_num)
  have hhu : Real.sqrt (1 / 2) ≤ 0.707107 := sqrt_ub _ _ (by norm_num) (by norm_num)
  have h6p : (0 : ℝ) < Real.sqrt 6 := by linarith
  have hal : 0.612372 ≤ 1.5 / Real.sqrt 6 := by
    rw [le_div_iff h6p]; linarith
  have hau : 1.5 / Real.sqrt 6 ≤ 0.612373 := by
    rw [div_le_iff h6p]; linarith
  have hPl : 0.433011 ≤ 1.5 / Real.sqrt 6 * Real.sqrt (1 / 2) := by
    linarith [mul_nonneg (by linarith : (0:ℝ) ≤ 1.5 / Real.sqrt 6 - 0.612372)
      (by linarith : (0:ℝ) ≤ Real.sqrt (1 / 2) - 0.707106)]
  have hPu : 1.5 / Real.sqrt 6 * Real.sqrt (1 / 2) ≤ 0.433014 := by
    linarith [mul_nonneg (by linarith : (0:ℝ) ≤ 1.5 / Real.sqrt 6)
      (by linarith : (0:ℝ) ≤ 0.707107 - Real.sqrt (1 / 2))]
  have hsplit : pmF 1.5 =
      Real.sqrt 6 * (Real.arctan (1.5 / Real.sqrt 6) -
        Real.arctan (Real.sqrt (1 / 2))) -
      (Real.arctan 1.5 - Real.arctan (Real.sqrt 3)) := by
    simp only [pmF]
    ring
  have hprod1 : (-1 : ℝ) < 1.5 / Real.sqrt 6 * Real.sqrt (1 / 2) := by linarith
  have hprod2 : (-1 : ℝ) < 1.5 * Real.sqrt 3 := by linarith
  have hA := arctan_sub_arctan (1.5 / Real.sqrt 6) (Real.sqrt (1 / 2)) hprod1
  have hB := arctan_sub_arctan 1.5 (Real.sqrt 3) hprod2
  rw [hA, hB] at hsplit
  -- bounds for the first arctan argument y1
  have hden1 : (0 : ℝ) < 1 + 1.5 / Real.sqrt 6 * Real.sqrt (1 / 2) := by linarith
  have hy1l : -0.066110 ≤ (1.5 / Real.sqrt 6 - Real.sqrt (1 / 2)) /
      (1 + 1.5 / Real.sqrt 6 * Real.sqrt (1 / 2)) := by
    rw [le_div_iff hden1]; linarith
  have hy1u : (1.5 / Real.sqrt 6 - Real.sqrt (1 / 2)) /
      (1 + 1.5 / Real.sqrt 6 * Real.sqrt (1 / 2)) ≤ -0.066107 := by
    rw [div_le_iff hden1]; linarith
  obtain ⟨hAt1, hAt2⟩ := arctan_enclose
    ((1.5 / Real.sqrt 6 - Real.sqrt (1 / 2)) /
      (1 + 1.5 / Real.sqrt 6 * Real.sqrt (1 / 2)))
    (-0.066110) (-0.066107) hy1l hy1u (by norm_num) (by norm_num)
  have hAl : -0.0660145 ≤ Real.arctan ((1.5 / Real.sqrt 6 - Real.sqrt (1 / 2)) /
      (1 + 1.5 / Real.sqrt 6 * Real.sqrt (1 / 2))) := by
    linarith [hAt1]
  have hAu : Real.arctan ((1.5 / Real.sqrt 6 - Real.sqrt (1 / 2)) /
      (1 + 1.5 / Real.sqrt 6 * Real.sqrt (1 / 2))) ≤ -0.0660100 := by
    linarith [hAt2]
  -- the product sqrt6 * arctan y1
  have hT1l : -0.161703 ≤ Real.sqrt 6 *
      Real.arctan ((1.5 / Real.sqrt 6 - Real.sqrt (1 / 2)) /
        (1 + 1.5 / Real.sqrt 6 * Real.sqrt (1 / 2))) := by
    linarith [mul_nonneg (by linarith : (0:ℝ) ≤ Real.sqrt 6 - 2.449489)
      (by linarith : (0:ℝ) ≤ Real.arctan ((1.5 / Real.sqrt 6 - Real.sqrt (1 / 2)) /
        (1 + 1.5 / Real.sqrt 6 * Real.sqrt (1 / 2))) + 0.0660145)]
  have hT1u : Real.sqrt 6 *
      Real.arctan ((1.5 / Real.sqrt 6 - Real.sqrt (1 / 2)) /
        (1 + 1.5 / Real.sqrt 6 * Real.sqrt (1 / 2))) ≤ -0.161690 := by
    linarith [mul_nonneg (by linarith : (0:ℝ) ≤ Real.sqrt 6 - 2.449489)
      (by linarith : (0:ℝ) ≤ -(0.0660100 : ℝ) - Real.arctan ((1.5 / Real.sqrt 6 -
        Real.sqrt (1 / 2)) / (1 + 1.5 / Real.sqrt 6 * Real.sqrt (1 / 2))))]
  -- bounds for the second arctan argument y2
  have hden2 : (0 : ℝ) < 1 + 1.5 * Real.sqrt 3 := by linarith
  have hy2l : -0.064494 ≤ (1.5 - Real.sqrt 3) / (1 + 1.5 * Real.sqrt 3) := by
    rw [le_div_iff hden2]; linarith
  have hy2u : (1.5 - Real.sqrt 3) / (1 + 1.5 * Real.sqrt 3) ≤ -0.064492 := by
    rw [div_le_iff hden2]; linarith
  obtain ⟨hBt1, hBt2⟩ := arctan_enclose
    ((1.5 - Real.sqrt 3) / (1 + 1.5 * Real.sqrt 3))
    (-0.064494) (-0.064492) hy2l hy2u (by norm_num) (by norm_num)
  have hBl : -0.0644055 ≤
      Real.arctan ((1.5 - Real.sqrt 3) / (1 + 1.5 * Real.sqrt 3)) := by
    linarith [hBt1]
  have hBu : Real.arctan ((1.5 - Real.sqrt 3) / (1 + 1.5 * Real.sqrt 3)) ≤
      -0.0644018 := by
    linarith [hBt2]
  rw [hsplit]
  constructor
  · linarith
  · linarith

/-- The first Newton pass from `x0 = 1.5`: the derivative guard does not fire
(`pmDF 1.5 = 60/143`), the step is far above the tolerance, and the next
iterate lands within `6e-4` of `√3`. -/
theorem nr_first_step :
    |1.5 - pmF 1.5 / pmDF 1.5 - Real.sqrt 3| ≤ 6e-4 ∧
    ¬ |1.5 - pmF 1.5 / pmDF 1.5 - 1.5| ≤ 1e-9 ∧
    ¬ |pmDF 1.5| < 1e-12 := by
  have hdf : pmDF 1.5 = 60 / 143 := by
    rw [pmDF_eq]; norm_num
  have h3l : 1.732050 ≤ Real.sqrt 3 := sqrt_lb _ _ (by norm_num) (by norm_num)
  have h3u : Real.sqrt 3 ≤ 1.732051 := sqrt_ub _ _ (by norm_num) (by norm_num)
  obtain ⟨hFl, hFu⟩ := pmF_at_init
  have hq : pmF 1.5 / pmDF 1.5 = pmF 1.5 * (143 / 60) := by
    rw [hdf]; ring
  refine ⟨?_, ?_, ?_⟩
  · rw [hq, abs_le]
    constructor <;> nlinarith
  · rw [hq]
    intro hcon
    obtain ⟨hc1, hc2⟩ := abs_le.mp hcon
    nlinarith
  · rw [hdf, abs_of_pos (by norm_num : (0:ℝ) < 60 / 143)]
    norm_num

/-- Full run of the embedded `calc_mach_from_prandtl_meyer_angle` on the
forward value at `M = 2`, `γ = 7/5`: the Newton solver returns and the
recovered Mach number is within `1e-5` of 2. -/
theorem pm_inverse_run :
    ∃ m, calc_mach_from_prandtl_meyer_angle
        (Real.sqrt 6 * Real.arctan (Real.sqrt (1 / 2)) - Real.arctan (Real.sqrt 3))
        (7 / 5) = .ok m ∧ |m - 2| ≤ 1e-5 := by
  obtain ⟨hx6, hstep, hguard⟩ := nr_first_step
  obtain ⟨y, hy, hyb⟩ := nr_run (1.5 - pmF 1.5 / pmDF 1.5) hx6
  refine ⟨Real.sqrt (y ^ (2 : ℕ) + 1), ?_, ?_⟩
  · rw [calc_mach_from_prandtl_meyer_angle, if_neg (not_not_intro valid_seven_fifths),
      show ((7 : ℝ) / 5 + 1) / ((7 : ℝ) / 5 - 1) = 6 by norm_num]
    show (newtonLoop pmF pmDF 1e-9 1.5 200).bind
      (fun eta => .ok (Real.sqrt (eta ^ (2 : ℕ) + 1))) = _
    have h200 : newtonLoop pmF pmDF 1e-9 1.5 200 =
        newtonLoop pmF pmDF 1e-9 (1.5 - pmF 1.5 / pmDF 1.5) 199 := by
      show newtonLoop pmF pmDF 1e-9 1.5 (199 + 1) = _
      rw [newtonLoop, if_neg hguard, if_neg hstep]
    rw [h200, hy]
    rfl
  · have h3l : 1.7320508 ≤ Real.sqrt 3 := sqrt_lb _ _ (by norm_num) (by norm_num)
    have h3u : Real.sqrt 3 ≤ 1.7320509 := sqrt_ub _ _ (by norm_num) (by norm_num)
    obtain ⟨hb1, hb2⟩ := abs_le.mp hyb
    have hyl : 1.7320507 ≤ y := by linarith
    have hyu : y ≤ 1.7320510 := by linarith
    have hup : Real.sqrt (y ^ (2 : ℕ) + 1) ≤ 2 + 1e-5 :=
      sqrt_ub _ _ (by norm_num) (by nlinarith)
    have hlo : 2 - 1e-5 ≤ Real.sqrt (y ^ (2 : ℕ) + 1) :=
      sqrt_lb _ _ (by norm_num) (by nlinarith)
    rw [abs_le]
    exact ⟨by linarith, by linarith⟩

/-- C8: For `M = 2` and `γ = 7/5`, each inverse isentropic relation undoes its
forward relation within `1e-5`: pressure ratio, temperature ratio, density
ratio, mach angle, and Prandtl-Meyer angle (the last through the embedded
Newton-Raphson iterative inverse with initial guess `η₀ = 1.5`). -/
theorem isentropic_roundtrips :
    (∃ p m, calc_pressure_ratio_from_mach 2 (7 / 5) = .ok p ∧
      calc_mach_from_pressure_ratio p (7 / 5) = .ok m ∧ |m - 2| ≤ 1e-5) ∧
    (∃ t m, calc_temperature_ratio_from_mach 2 (7 / 5) = .ok t ∧
      calc_mach_from_temperature_ratio t (7 / 5) = .ok m ∧ |m - 2| ≤ 1e-5) ∧
    (∃ d m, calc_density_ratio_from_mach 2 (7 / 5) = .ok d ∧
      calc_mach_from_density_ratio d (7 / 5) = .ok m ∧ |m - 2| ≤ 1e-5) ∧
    (∃ a m, calc_mach_angle_from_mach 2 = .ok a ∧
      calc_mach_from_mach_angle a = .ok m ∧ |m - 2| ≤ 1e-5) ∧
    (∃ v m, prandtl_meyer_function 2 (7 / 5) = .ok v ∧
      calc_mach_from_prandtl_meyer_angle v (7 / 5) = .ok m ∧ |m - 2| ≤ 1e-5) :=
  ⟨pressure_roundtrip, temperature_roundtrip, density_roundtrip,
    mach_angle_roundtrip, by
      obtain ⟨m, hm, hb⟩ := pm_inverse_run
      exact ⟨_, m, pm_forward_value, hm, hb⟩⟩
